import Mathlib

/-!
Verification development for the APEX blend server core
(`src/server/index.mjs`): the strict validator, the violation scorer, the
repair algorithm (`autofixBestAttempt`), the pricing calculator
(`priceBlend`), the orchestrator retry loop (`runRecommend`), and the
job-queue leasing / worker retry logic.

JavaScript numbers are modelled as `XNum`: exact rationals extended with
`+Infinity`, `-Infinity` and `NaN`.  Every finite double is a rational, and
the operations the source uses on quantities (floor, min, max, comparison,
integer test, addition of small integers) agree with exact rational
arithmetic on the relevant inputs; sub-cent floating-point rounding in the
pricing path is noted where it could shift a displayed digit.  A possibly
malformed recipe entry (from parsed generator JSON) is modelled as
`Option RawComp`: `none` is a `null`/falsy entry, `RawComp.origin_code =
none` is a non-string code, and `RawComp.grams` records both whether the
value is a JS number and its numeric coercion.
-/

namespace Apex

attribute [local semireducible] Rat.add Rat.mul Rat.sub Rat.inv Rat.ofScientific

/-- JavaScript number values: finite (exact rational), the two infinities,
and NaN. -/
inductive XNum where
  | fin (q : ℚ)
  | pinf
  | ninf
  | nan
deriving DecidableEq, Repr

namespace XNum

/-- Addition of JS numbers (`+`): NaN absorbs, opposite infinities give NaN. -/
def add : XNum → XNum → XNum
  | fin a, fin b => fin (a + b)
  | fin _, pinf => pinf
  | fin _, ninf => ninf
  | pinf, fin _ => pinf
  | ninf, fin _ => ninf
  | pinf, pinf => pinf
  | ninf, ninf => ninf
  | pinf, ninf => nan
  | ninf, pinf => nan
  | _, _ => nan

/-- Subtraction of JS numbers. -/
def sub : XNum → XNum → XNum
  | fin a, fin b => fin (a - b)
  | fin _, pinf => ninf
  | fin _, ninf => pinf
  | pinf, fin _ => pinf
  | ninf, fin _ => ninf
  | pinf, ninf => pinf
  | ninf, pinf => ninf
  | pinf, pinf => nan
  | ninf, ninf => nan
  | _, _ => nan

/-- Multiplication of JS numbers: `Infinity * 0 = NaN`, signs as usual. -/
def mul : XNum → XNum → XNum
  | fin a, fin b => fin (a * b)
  | fin a, pinf => if a > 0 then pinf else if a < 0 then ninf else nan
  | fin a, ninf => if a > 0 then ninf else if a < 0 then pinf else nan
  | pinf, fin b => if b > 0 then pinf else if b < 0 then ninf else nan
  | ninf, fin b => if b > 0 then ninf else if b < 0 then pinf else nan
  | pinf, pinf => pinf
  | ninf, ninf => pinf
  | pinf, ninf => ninf
  | ninf, pinf => ninf
  | _, _ => nan

/-- The strict-less-than comparison of JS (`<`, `>` by swapping): any
comparison involving NaN is false. -/
def ltb : XNum → XNum → Bool
  | fin a, fin b => a < b
  | fin _, pinf => true
  | ninf, fin _ => true
  | ninf, pinf => true
  | _, _ => false

/-- `Number.isFinite`. -/
def isFinite : XNum → Bool
  | fin _ => true
  | _ => false

/-- `Number.isInteger` of a number value: finite with denominator one. -/
def isIntegerV : XNum → Bool
  | fin q => q.den = 1
  | _ => false

/-- `Math.floor`: identity on infinities and NaN. -/
def floor : XNum → XNum
  | fin q => fin ⌊q⌋
  | x => x

/-- `Math.max` with a finite constant first argument: NaN absorbs. -/
def maxc (c : ℚ) : XNum → XNum
  | fin q => fin (max c q)
  | pinf => pinf
  | ninf => fin c
  | nan => nan

/-- `Math.min` with a finite constant second argument: NaN absorbs. -/
def minc : XNum → ℚ → XNum
  | fin q, c => fin (min q c)
  | pinf, c => fin c
  | ninf, _ => ninf
  | nan, _ => nan

/-- `x || d` for a number `x` and (truthy, finite) default `d`: replaces the
falsy values `0` and `NaN` by the default. -/
def orDefault : XNum → ℚ → XNum
  | fin q, d => if q = 0 then fin d else fin q
  | nan, d => fin d
  | x, _ => x

/-- `Math.abs`. -/
def abs : XNum → XNum
  | fin q => fin |q|
  | pinf => pinf
  | ninf => pinf
  | nan => nan

/-- `(x).toFixed(2)` read back as a number: round to a multiple of 1/100,
ties away from zero resolved upward as in the ECMAScript spec. -/
def toFixed2 : XNum → XNum
  | fin q => fin (((⌊q * 100 + 1/2⌋ : ℤ) : ℚ) / 100)
  | x => x

end XNum

/-- A catalog ingredient as produced by `loadOriginsFromDB` (sensory fields
not used by any claim are omitted). -/
structure Origin where
  code : String
  maxGrams : ℤ
  costPerG : ℚ
deriving DecidableEq, Repr

/-- The loaded catalog; `originMap` in the source is a `Map` built from this
list keyed by `code`, so lookup is first-match by code and the values list
preserves this order. -/
abbrev Catalog := List Origin

/-- `originMap.get(code)` / `originMap.has(code)`. -/
def findOrigin (m : Catalog) (c : String) : Option Origin :=
  m.find? (fun o => o.code == c)

/-- The `grams` field of a parsed recipe entry: whether it is a JS number
(`typeof === "number"`) together with its numeric coercion `Number(x)`.
For an actual number the coercion is the value itself. -/
structure GramsVal where
  isNumber : Bool
  val : XNum
deriving DecidableEq, Repr

/-- A non-null recipe entry from parsed generator JSON: `origin_code` is
`none` when the field is missing or not a string. -/
structure RawComp where
  origin_code : Option String
  grams : GramsVal
deriving DecidableEq, Repr

/-- A recipe value as seen by the validator, scorer and repair engine:
`none` when `Array.isArray` fails (missing or non-array), otherwise a list
of possibly-null entries. -/
abbrev RawRecipe := Option (List (Option RawComp))

/-- A clean component as handled after validation or repair:
a known-format `{ origin_code, grams }` pair (grams kept as a JS number). -/
structure CompX where
  code : String
  grams : XNum
deriving DecidableEq, Repr

/-- Embed a clean component back into the raw-entry type (an object with a
string code whose `grams` is an actual number). -/
def CompX.toRaw (c : CompX) : Option RawComp :=
  some ⟨some c.code, ⟨true, c.grams⟩⟩

/-- Embed a clean recipe into the raw-recipe type. -/
def toRawRecipe (l : List CompX) : RawRecipe :=
  some (l.map CompX.toRaw)

-- ================== Validator (`validateStrict`) ==================

/-- One step of `validateStrict`s per-component loop: checks one entry in
source order (unknown code, duplicate code, integer grams, minimum 20,
stock ceiling) and accumulates the grams sum; a `null` entry crashes with a
TypeError when its `origin_code` property is read. -/
def validateComps (m : Catalog) : List String → ℚ → List (Option RawComp) → Except String ℚ
  | _, s, [] => .ok s
  | _, _, none :: _ => .error "TypeError: cannot read origin_code of null"
  | seen, s, some r :: rs =>
    match r.origin_code with
    | none => .error "unknown origin_code"
    | some c =>
      match findOrigin m c with
      | none => .error "unknown origin_code"
      | some o =>
        if c ∈ seen then .error "duplicate origin_code"
        else if ¬ (r.grams.isNumber ∧ r.grams.val.isIntegerV) then .error "grams must be integer"
        else
          match r.grams.val with
          | .fin g =>
            if g < 20 then .error "min 20g per origin"
            else if g > (o.maxGrams : ℚ) then .error "exceeds stock maxGrams"
            else validateComps m (c :: seen) (s + g) rs
          | _ => .error "grams must be integer"

/-- `validateStrict(recipe, sizeG, originMap)`: length 2..5, per-component
checks, exact sum; success is `ok ()`, a violation is the thrown message. -/
def validateStrict (recipe : RawRecipe) (sizeG : ℤ) (m : Catalog) : Except String Unit :=
  match recipe with
  | none => .error "recipe must have 2..5 items"
  | some l =>
    if l.length < 2 ∨ l.length > 5 then .error "recipe must have 2..5 items"
    else
      match validateComps m [] 0 l with
      | .error e => .error e
      | .ok s =>
        if s = (sizeG : ℚ) then .ok ()
        else .error ("grams sum must be exactly " ++ toString sizeG)

-- ================== Scorer (`violationScore`) ==================

/-- The left-to-right reduce of `gramsSum`: each step adds
`Number(r?.grams) || 0` (0 for a null entry, since `Number(undefined)` is
NaN which is falsy). -/
def gramsSumAux (acc : XNum) : List (Option RawComp) → XNum
  | [] => acc
  | none :: rs => gramsSumAux (acc.add (.fin 0)) rs
  | some r :: rs => gramsSumAux (acc.add (r.grams.val.orDefault 0)) rs

/-- `gramsSum(recipe)`. -/
def gramsSum (l : List (Option RawComp)) : XNum := gramsSumAux (.fin 0) l

/-- The near-stock cutoff `Math.floor(max * 0.9)` (exact rational model;
binary floating point can shift this cutoff by one for rare stock values,
which no claim depends on). -/
def nearStockCutoff (max : ℤ) : ℤ := ⌊(max : ℚ) * (9 / 10)⌋

/-- Penalty contributed by a single entry of `violationScore`s loop, given
the codes already seen: a falsy entry or non-string code is 2000 and skips
the rest; otherwise unknown-code, duplicate, non-finite, non-integer,
below-minimum, over-stock and near-stock penalties accumulate in source
order on the coerced value `g = Number(r.grams)`. -/
def entryScore (m : Catalog) (seen : List String) : Option RawComp → XNum
  | none => .fin 2000
  | some r =>
    match r.origin_code with
    | none => .fin 2000
    | some c =>
      let g := r.grams.val
      let s1 : XNum := if (findOrigin m c).isNone then .fin 2000 else .fin 0
      let s2 : XNum := if c ∈ seen then .fin 500 else .fin 0
      let s3 : XNum := if ¬ g.isFinite then .fin 500 else .fin 0
      let s4 : XNum := if ¬ g.isIntegerV then .fin 150 else .fin 0
      let s5 : XNum := if XNum.ltb g (.fin 20) then ((XNum.fin 20).sub g).mul (.fin 25) else .fin 0
      let s6 : XNum :=
        match findOrigin m c with
        | none => .fin 0
        | some o =>
          let over : XNum :=
            if XNum.ltb (.fin (o.maxGrams : ℚ)) g then (g.sub (.fin (o.maxGrams : ℚ))).mul (.fin 40)
            else .fin 0
          let near : XNum :=
            if o.maxGrams > 0 ∧ XNum.ltb (.fin (nearStockCutoff o.maxGrams : ℚ)) g then .fin 50
            else .fin 0
          over.add near
      ((((s1.add s2).add s3).add s4).add s5).add s6

/-- The codes the scorer loop adds to its `seen` set for one entry (a falsy
entry or non-string code adds nothing, it `continue`s first). -/
def seenAfter (seen : List String) : Option RawComp → List String
  | none => seen
  | some r =>
    match r.origin_code with
    | none => seen
    | some c => c :: seen

/-- The per-component loop of `violationScore`, accumulating the mutable
`score` left to right. -/
def scoreComps (m : Catalog) (seen : List String) (acc : XNum) : List (Option RawComp) → XNum
  | [] => acc
  | e :: rs => scoreComps m (seenAfter seen e) (acc.add (entryScore m seen e)) rs

/-- `violationScore(recipe, sizeG, originMap)`: `1e9` for a non-array,
otherwise per-component penalties plus count penalties plus
`Math.abs(sum - sizeG) * 15`. -/
def violationScore (recipe : RawRecipe) (sizeG : ℤ) (m : Catalog) : XNum :=
  match recipe with
  | none => .fin 1000000000
  | some l =>
    let base := scoreComps m [] (.fin 0) l
    let cLow : XNum := if l.length < 2 then .fin 1800 else .fin 0
    let cHigh : XNum := if l.length > 5 then .fin ((l.length - 5 : ℤ) * 500) else .fin 0
    let sumPen : XNum := ((gramsSum l).sub (.fin (sizeG : ℚ))).abs.mul (.fin 15)
    ((base.add cLow).add cHigh).add sumPen

-- ================== Pricing (`priceBlend`) ==================

/-- `PACKAGING_COST`. -/
def PACKAGING_COST : ℚ := 15

/-- `MARGIN_PCT`. -/
def MARGIN_PCT : ℚ := 15 / 100

/-- `roundToNearest5(v) = Math.round(v / 5) * 5`; `Math.round` is
`floor(x + 1/2)`. -/
def roundToNearest5 : XNum → XNum
  | .fin q => .fin (((⌊q / 5 + 1/2⌋ : ℤ) : ℚ) * 5)
  | x => x

/-- The bean-cost reduce of `priceBlend`, left to right: a null entry
crashes reading `origin_code`; an unknown code is skipped; otherwise
`grams * costPerG` is added (grams by numeric coercion, as JS `*`
coerces). -/
def beanCostFold (m : Catalog) : XNum → List (Option RawComp) → Except String XNum
  | acc, [] => .ok acc
  | _, none :: _ => .error "TypeError: cannot read origin_code of null"
  | acc, some r :: rs =>
    match r.origin_code with
    | none => beanCostFold m acc rs
    | some c =>
      match findOrigin m c with
      | none => beanCostFold m acc rs
      | some o => beanCostFold m (acc.add (r.grams.val.mul (.fin o.costPerG))) rs

/-- The pricing breakdown returned by `priceBlend`. -/
structure Pricing where
  beanCost : XNum
  packagingCost : ℚ
  marginPct : ℚ
  subtotal : XNum
  preRound : XNum
  total : XNum
deriving DecidableEq, Repr

/-- `priceBlend(recipe, originMap)`: bean cost over known codes, plus
packaging, times `1 + MARGIN_PCT`, rounded to the nearest multiple of 5;
the displayed fields are `toFixed(2)` values. -/
def priceBlend (recipe : List (Option RawComp)) (m : Catalog) : Except String Pricing := do
  let beanCost ← beanCostFold m (.fin 0) recipe
  let subtotal := beanCost.add (.fin PACKAGING_COST)
  let preRound := subtotal.mul (.fin (1 + MARGIN_PCT))
  let total := roundToNearest5 preRound
  .ok { beanCost := beanCost.toFixed2, packagingCost := PACKAGING_COST,
        marginPct := MARGIN_PCT, subtotal := subtotal.toFixed2,
        preRound := preRound.toFixed2, total := total }

-- ================== Repair engine (`autofixBestAttempt`) ==================

/-- The grams normalisation of the repair engines first pass:
`Math.max(20, Math.floor(Number(r.grams) || 20))`. -/
def fixGrams (g : GramsVal) : XNum := XNum.maxc 20 (XNum.floor (g.val.orDefault 20))

/-- The first pass of `autofixBestAttempt`: drop falsy entries and entries
whose code is missing or unknown, and normalise the grams of the rest. -/
def autofixFilterMap (m : Catalog) : List (Option RawComp) → List CompX
  | [] => []
  | none :: rs => autofixFilterMap m rs
  | some r :: rs =>
    match r.origin_code with
    | none => autofixFilterMap m rs
    | some c =>
      if (findOrigin m c).isSome then ⟨c, fixGrams r.grams⟩ :: autofixFilterMap m rs
      else autofixFilterMap m rs

/-- The descending comparator key `b.grams - a.grams > 0` of the grams
sort; a NaN comparator value (infinite vs infinite grams) leaves the order
unchanged, exactly as `Array.prototype.sort` treats a non-positive,
non-negative comparator result. -/
def gramsGt (a b : XNum) : Bool := XNum.ltb b a

/-- Stable insertion of one element into a descending-sorted prefix: the
element moves ahead only of strictly smaller keys, so equal keys keep their
original order. -/
def insertDesc (x : CompX) : List CompX → List CompX
  | [] => [x]
  | y :: ys => if gramsGt x.grams y.grams then x :: y :: ys else y :: insertDesc x ys

/-- `fixed.sort((a, b) => b.grams - a.grams)`: JS `sort` is stable, and a
stable sort for a total preorder has a unique result, so this left-to-right
stable insertion sort computes it. -/
def sortGramsDesc (l : List CompX) : List CompX := l.foldl (fun acc x => insertDesc x acc) []

/-- The duplicate filter with its `used` set: keep the first occurrence of
each code, returning the kept list and the final `used` set. -/
def dedupAux (seen : List String) : List CompX → List CompX × List String
  | [] => ([], seen)
  | r :: rs =>
    if r.code ∈ seen then dedupAux seen rs
    else
      let out := dedupAux (r.code :: seen) rs
      (r :: out.1, out.2)

/-- The ascending cost comparator for `[...originMap.values()]
.sort((a, b) => a.costPerG - b.costPerG)`. -/
def insertAscCost (x : Origin) : List Origin → List Origin
  | [] => [x]
  | y :: ys => if x.costPerG < y.costPerG then x :: y :: ys else y :: insertAscCost x ys

/-- The catalog values sorted by unit cost ascending (stable). -/
def sortByCost (m : Catalog) : List Origin := m.foldl (fun acc x => insertAscCost x acc) []

/-- Step 5 of the repair engine: if fewer than 2 components remain, append
the cheapest (then the second cheapest) catalog ingredient not in `used`,
at 20 grams, checking the length again after the first push. -/
def appendCheapest (m : Catalog) (fixed : List CompX) (used : List String) : List CompX :=
  if fixed.length < 2 then
    let sorted := sortByCost m
    let fixed1 :=
      match sorted.head? with
      | some ch => if ch.code ∈ used then fixed else fixed ++ [⟨ch.code, .fin 20⟩]
      | none => fixed
    match sorted.get? 1 with
    | some sec => if fixed1.length < 2 ∧ sec.code ∉ used then fixed1 ++ [⟨sec.code, .fin 20⟩] else fixed1
    | none => fixed1
  else fixed

/-- Step 6: clamp every quantity to the stock ceiling
(`originMap.get(r.origin_code).maxGrams`); a code not in the map would
crash reading `maxGrams` of `undefined`. -/
def clampStock (m : Catalog) : List CompX → Except String (List CompX)
  | [] => .ok []
  | r :: rs =>
    match findOrigin m r.code with
    | none => .error "TypeError: cannot read maxGrams of undefined"
    | some o => do
      let rest ← clampStock m rs
      .ok (⟨r.code, r.grams.minc (o.maxGrams : ℚ)⟩ :: rest)

/-- `fixed.reduce((s, r) => s + r.grams, 0)`. -/
def sumGrams (l : List CompX) : XNum := l.foldl (fun s r => s.add r.grams) (.fin 0)

/-- The `findIndex` of the adjustment loop: the first component that can
move one unit in the wanted direction (`grams > 20` to decrement,
`grams < maxGrams` to increment); looks up each components stock ceiling
and crashes on an unknown code. -/
def findAdjIdx (m : Catalog) (inc : Bool) : List CompX → Except String (Option ℕ)
  | [] => .ok none
  | r :: rs =>
    match findOrigin m r.code with
    | none => .error "TypeError: cannot read maxGrams of undefined"
    | some o =>
      if (if inc then XNum.ltb r.grams (.fin (o.maxGrams : ℚ)) else XNum.ltb (.fin 20) r.grams)
      then .ok (some 0)
      else do
        let rest ← findAdjIdx m inc rs
        .ok (rest.map (· + 1))

/-- `fixed[idx].grams += dir`. -/
def bumpGrams (d : ℚ) : List CompX → ℕ → List CompX
  | [], _ => []
  | r :: rs, 0 => ⟨r.code, r.grams.add (.fin d)⟩ :: rs
  | r :: rs, n + 1 => r :: bumpGrams d rs n

/-- The bounded ±1 adjustment loop (`while (sum !== sizeG && guard++ <
12000)`), with the guard as fuel: a pass picks the direction from the sign
of `sum - sizeG` (NaN picks increment, as `sum > sizeG` is then false),
finds an adjustable component, or `break`s if there is none. -/
def adjustLoop (m : Catalog) (sizeG : ℤ) : ℕ → XNum → List CompX → Except String (List CompX)
  | 0, _, fixed => .ok fixed
  | fuel + 1, sum, fixed =>
    if sum = XNum.fin (sizeG : ℚ) then .ok fixed
    else do
      let inc := ! XNum.ltb (.fin (sizeG : ℚ)) sum
      match ← findAdjIdx m inc fixed with
      | none => .ok fixed
      | some i =>
        let d : ℚ := if inc then 1 else -1
        adjustLoop m sizeG fuel (sum.add (.fin d)) (bumpGrams d fixed i)

/-- The deterministic preparation phase of `autofixBestAttempt` (steps 1-6:
filter and normalise, sort by grams descending, drop duplicate codes,
truncate to 5, top up to 2 components from cheapest stock, clamp to stock
ceilings). -/
def autofixPrepare (recipe : RawRecipe) (m : Catalog) : Except String (List CompX) := do
  let fixed0 := autofixFilterMap m (recipe.getD [])
  let sorted := sortGramsDesc fixed0
  let dd := dedupAux [] sorted
  let fixed2 := dd.1.take 5
  let fixed3 := appendCheapest m fixed2 dd.2
  clampStock m fixed3

/-- `autofixBestAttempt(recipe, sizeG, originMap)`: the preparation phase,
then the bounded adjustment loop, then the final exact-sum check that
throws `autofix failed to normalize`. -/
def autofixBestAttempt (recipe : RawRecipe) (sizeG : ℤ) (m : Catalog) : Except String (List CompX) := do
  let fixed ← autofixPrepare recipe m
  let fixed5 ← adjustLoop m sizeG 12000 (sumGrams fixed) fixed
  if sumGrams fixed5 = XNum.fin (sizeG : ℚ) then .ok fixed5
  else .error "autofix failed to normalize"

-- ================== Orchestrator (`runRecommend`) ==================

/-- A parsed generator response: just its `recipe` field (`raw?.recipe`),
which may be missing or not an array.  The explanatory prose fields of the
response do not influence control flow and are omitted. -/
structure GenParsed where
  recipe : RawRecipe
deriving DecidableEq, Repr

/-- One generator call: `none` when `safeJsonParse` of the output text
fails.  The generator is modelled as an oracle indexed by the attempt
number; this covers every possible response sequence, including the
dependence of real responses on the fed-back error message. -/
abbrev Generator := ℕ → Option GenParsed

/-- The job payload `{ size_g, line, preferences }`; `preferences` only
undergoes a truthiness check in the core, so only its presence is kept. -/
structure Payload where
  size_g : ℤ
  line : String
  hasPreferences : Bool
deriving DecidableEq, Repr

/-- The result object assembled by `runRecommend`, restricted to the fields
the claims are about: the strict recipe, the pricing block, and the
`meta.attempts` / `meta.usedAutofix` tags.  Profile, chart and prose fields
are pure presentation and are omitted. -/
structure RecResult where
  recipe : List CompX
  pricing : Pricing
  attempts : ℕ
  usedAutofix : Bool
deriving DecidableEq, Repr

/-- The best-scored candidate retained across attempts. -/
structure BestC where
  raw : GenParsed
  score : XNum
  attempt : ℕ
deriving DecidableEq, Repr

/-- `if (!best || score < best.score) best = { raw, score, attempt }`. -/
def updBest (best : Option BestC) (raw : GenParsed) (score : XNum) (attempt : ℕ) : Option BestC :=
  match best with
  | none => some ⟨raw, score, attempt⟩
  | some b => if XNum.ltb score b.score then some ⟨raw, score, attempt⟩ else some b

/-- `recipe.map((r) => ({ origin_code: r.origin_code, grams: r.grams }))`
on a just-validated recipe (validation guarantees every entry is an object
with a string code and a number grams, so the defaults are never used). -/
def stripRecipe : List (Option RawComp) → List CompX
  | [] => []
  | none :: rs => stripRecipe rs
  | some r :: rs => ⟨r.origin_code.getD "", r.grams.val⟩ :: stripRecipe rs

/-- The body of one generator attempt after the candidate has been scored:
everything inside the `try` that can still throw — the strict validation
and the result assembly.  An `Except.error` is what the surrounding
`catch` turns into `lastError`. -/
def attemptBody (p : Payload) (m : Catalog) (raw : GenParsed) (attempt : ℕ) :
    Except String RecResult := do
  let _ ← validateStrict raw.recipe p.size_g m
  let strict := stripRecipe (raw.recipe.getD [])
  let pricing ← priceBlend (strict.map CompX.toRaw) m
  .ok { recipe := strict, pricing := pricing, attempts := attempt, usedAutofix := false }

/-- `MAX_ATTEMPTS`. -/
def MAX_ATTEMPTS : ℕ := 5

/-- The fallback path after the attempt loop: repair the best candidates
recipe, re-validate it, and tag the result with `usedAutofix: true` and
`attempts: MAX_ATTEMPTS`; with no usable candidate at all the run throws
`No usable output after attempts`. -/
def fallbackResult (p : Payload) (m : Catalog) (best : Option BestC) : Except String RecResult :=
  match best with
  | none => .error "No usable output after attempts"
  | some b => do
    let fixed ← autofixBestAttempt b.raw.recipe p.size_g m
    let _ ← validateStrict (toRawRecipe fixed) p.size_g m
    let pricing ← priceBlend (fixed.map CompX.toRaw) m
    .ok { recipe := fixed, pricing := pricing, attempts := MAX_ATTEMPTS, usedAutofix := true }

/-- The bounded retry loop of `runRecommend`: on each attempt, parse the
generator output (a parse failure is caught and recorded), score the
candidate and keep it if best so far, then run the throwing body; an error
becomes `lastError` for the next attempt, a success returns immediately. -/
def recLoop (gen : Generator) (p : Payload) (m : Catalog) :
    ℕ → ℕ → Option BestC → Option String → Except String RecResult
  | _, 0, best, _ => fallbackResult p m best
  | attempt, fuel + 1, best, _ =>
    match gen attempt with
    | none => recLoop gen p m (attempt + 1) fuel best (some "Model returned non-JSON text")
    | some raw =>
      let score := violationScore raw.recipe p.size_g m
      let best1 := updBest best raw score attempt
      match attemptBody p m raw attempt with
      | .ok r => .ok r
      | .error e => recLoop gen p m (attempt + 1) fuel best1 (some e)

/-- `runRecommend(payload)`: the input guards, the empty-catalog guard, and
the retry loop.  The catalog (loaded from the database inside the source
function) is a parameter; the environment guards on the OpenAI model name
and API key are deployment configuration and are modelled as satisfied. -/
def runRecommend (gen : Generator) (p : Payload) (m : Catalog) : Except String RecResult :=
  if p.size_g ≤ 0 then .error "size_g must be positive int"
  else if p.line ≠ "daily" ∧ p.line ≠ "premium" then .error "line must be daily|premium"
  else if ¬ p.hasPreferences then .error "preferences required"
  else if m.isEmpty then .error "No stock available right now."
  else recLoop gen p m 1 MAX_ATTEMPTS none none

-- ================== Job store and worker ==================

/-- A job record, with the fields the worker mutates (identity, type tag
and timestamps are managed by the store and omitted). -/
structure JobRec where
  status : String
  attempts : ℕ
  error : Option String
  result : Option RecResult
  locked_at : Option ℕ
  locked_by : Option String
deriving DecidableEq, Repr

/-- `bumpAttempts`: the worker increments the attempt counter right after
leasing. -/
def bumpAttempts (j : JobRec) : JobRec := { j with attempts := j.attempts + 1 }

/-- `markJobSuccess`: terminal success with the result attached and the
error cleared (the lease fields are left as they are). -/
def markJobSuccess (j : JobRec) (r : RecResult) : JobRec :=
  { j with status := "succeeded", result := some r, error := none }

/-- `markJobFailed`: terminal failure with the error recorded (the lease
fields are left as they are). -/
def markJobFailed (j : JobRec) (e : String) : JobRec :=
  { j with status := "failed", error := some e }

/-- The requeue update of `workerTickOnce`: back to `queued`, both lease
fields cleared, the error kept for observability. -/
def requeueJob (j : JobRec) (e : String) : JobRec :=
  { j with status := "queued", error := some e, locked_at := none, locked_by := none }

/-- The post-lease part of `workerTickOnce` as a pure state update: bump
the attempt counter, run the orchestrator, and on failure compare
`attemptsNow = job.attempts + 1` against the max-attempt budget. -/
def workerSettle (j : JobRec) (outcome : Except String RecResult) (maxAttempts : ℕ) : JobRec :=
  let j1 := bumpAttempts j
  match outcome with
  | .ok r => markJobSuccess j1 r
  | .error e => if j.attempts + 1 < maxAttempts then requeueJob j1 e else markJobFailed j1 e

-- ================== Leasing (`lockNextQueuedJob`) ==================

/-- The two observable phases of one `lockNextQueuedJob` call against a
single queued job: `start` (before the SELECT), `picked` (the SELECT saw
the queued job), `doneGot` (the conditional UPDATE matched and the call
returned the job), `doneNot` (the SELECT found nothing or the UPDATE
matched no row, i.e. the call returned null: no job available). -/
inductive Phase where
  | start
  | picked
  | doneGot
  | doneNot
deriving DecidableEq, Repr

/-- One worker advances one database operation.  The SELECT picks the job
only while it is still `queued`; the UPDATE is the compare-and-swap: it
succeeds only if the status is *still* `queued`, and then writes `running`,
the workers identity and the lease timestamp. -/
def leaseStep (t : ℕ) (wid : String) (p : Phase) (j : JobRec) : Phase × JobRec :=
  match p with
  | .start => if j.status = "queued" then (.picked, j) else (.doneNot, j)
  | .picked =>
    if j.status = "queued" then
      (.doneGot, { j with status := "running", locked_at := some t, locked_by := some wid })
    else (.doneNot, j)
  | ph => (ph, j)

/-- Two workers racing on one queued job: the shared record and each
workers phase. -/
structure LeaseSys where
  job : JobRec
  p0 : Phase
  p1 : Phase
deriving DecidableEq, Repr

/-- Interleaving step: the scheduled worker performs its next database
operation (each SELECT / UPDATE is atomic in the store). -/
def leaseSysStep (t : ℕ) (idA idB : String) (w : Bool) (s : LeaseSys) : LeaseSys :=
  match w with
  | true => { s with p1 := (leaseStep t idB s.p1 s.job).1, job := (leaseStep t idB s.p1 s.job).2 }
  | false => { s with p0 := (leaseStep t idA s.p0 s.job).1, job := (leaseStep t idA s.p0 s.job).2 }

/-- Run an arbitrary interleaving schedule. -/
def leaseRun (t : ℕ) (idA idB : String) (sched : List Bool) (s : LeaseSys) : LeaseSys :=
  sched.foldl (fun st w => leaseSysStep t idA idB w st) s

/-- The initial state: one queued, unleased job. -/
def leaseInit (j : JobRec) : LeaseSys := ⟨j, .start, .start⟩

/-- A worker finished its call (returning either the job or null). -/
def Phase.isDone : Phase → Bool
  | .doneGot => true
  | .doneNot => true
  | _ => false

-- ================== Spec-side validity predicate ==================

/-- The code of a recipe entry, when the entry is an object with a string
code. -/
def codeOf (e : Option RawComp) : Option String := e.bind RawComp.origin_code

/-- The finite quantity of an entry (0 as a placeholder otherwise; only
used where entries are known well-formed). -/
def gramsQOf : Option RawComp → ℚ
  | some r =>
    match r.grams.val with
    | .fin g => g
    | _ => 0
  | none => 0

/-- Modelled from the spec: one component is acceptable when it is an
object whose code is a string present in the catalog and whose quantity is
an integer between 20 and that ingredients stock. -/
def specEntryOK (m : Catalog) : Option RawComp → Bool
  | none => false
  | some r =>
    match r.origin_code with
    | none => false
    | some c =>
      match findOrigin m c with
      | none => false
      | some o =>
        r.grams.isNumber && r.grams.val.isIntegerV &&
          (match r.grams.val with
           | .fin g => decide (20 ≤ g ∧ g ≤ (o.maxGrams : ℚ))
           | _ => false)

/-- Modelled from the spec: a valid recipe is a list of 2 to 5 components,
every component acceptable, all codes pairwise distinct, and the
quantities summing exactly to the requested total. -/
def specValidRecipe (recipe : RawRecipe) (sizeG : ℤ) (m : Catalog) : Bool :=
  match recipe with
  | none => false
  | some l =>
    decide (2 ≤ l.length) && decide (l.length ≤ 5) &&
      l.all (specEntryOK m) && decide (l.map codeOf).Nodup &&
      decide ((l.map gramsQOf).sum = (sizeG : ℚ))

/-- The per-component loop of the validator succeeds exactly when every
entry is acceptable, the codes are distinct among themselves and disjoint
from the already-seen set, and then it returns the accumulated sum. -/
theorem validateComps_ok_iff (m : Catalog) (l : List (Option RawComp)) :
    ∀ (seen : List String) (s₀ s : ℚ),
      validateComps m seen s₀ l = .ok s ↔
        ((∀ e ∈ l, specEntryOK m e = true) ∧ (l.map codeOf).Nodup ∧
          (∀ c ∈ seen, some c ∉ l.map codeOf) ∧ s = s₀ + (l.map gramsQOf).sum) := by
  induction l with
  | nil =>
    intro seen s₀ s
    simp only [validateComps, List.map_nil, List.sum_nil, add_zero, List.nodup_nil,
      List.not_mem_nil, Except.ok.injEq]
    constructor
    · rintro rfl
      exact ⟨by simp, trivial, by simp, rfl⟩
    · rintro ⟨_, _, _, rfl⟩
      rfl
  | cons e rs ih =>
    intro seen s₀ s
    match e with
    | none =>
      simp [validateComps, specEntryOK]
    | some r =>
      match hc : r.origin_code with
      | none =>
        simp [validateComps, specEntryOK, hc, codeOf]
      | some c =>
        match ho : findOrigin m c with
        | none =>
          simp [validateComps, specEntryOK, hc, ho, codeOf]
        | some o =>
          by_cases hseen : c ∈ seen
          · simp only [validateComps, hc, ho, if_pos hseen]
            constructor
            · intro h; exact absurd h (by simp)
            · rintro ⟨_, _, hdis, _⟩
              exact absurd (hdis c hseen) (by simp [codeOf, hc])
          · by_cases hint : (r.grams.isNumber = true) ∧ (r.grams.val.isIntegerV = true)
            · match hg : r.grams.val with
              | .fin g =>
                have hint2 : (r.grams.isNumber = true) ∧ ((XNum.fin g).isIntegerV = true) := by
                  rw [← hg]; exact hint
                have hok : specEntryOK m (some r) = decide (20 ≤ g ∧ g ≤ (o.maxGrams : ℚ)) := by
                  simp [specEntryOK, hc, ho, hg, hint2.1, hint2.2]
                simp only [validateComps, hc, ho, hg, if_neg hseen, if_neg (not_not_intro hint2)]
                by_cases h20 : g < 20
                · rw [if_pos h20]
                  constructor
                  · intro h; exact absurd h (by simp)
                  · rintro ⟨hall, _⟩
                    have := hall (some r) (by simp)
                    rw [hok] at this
                    simp only [decide_eq_true_eq] at this
                    linarith [this.1]
                · by_cases hmax : g > (o.maxGrams : ℚ)
                  · rw [if_neg h20, if_pos hmax]
                    constructor
                    · intro h; exact absurd h (by simp)
                    · rintro ⟨hall, _⟩
                      have := hall (some r) (by simp)
                      rw [hok] at this
                      simp only [decide_eq_true_eq] at this
                      linarith [this.2]
                  · rw [if_neg h20, if_neg hmax]
                    rw [ih (c :: seen) (s₀ + g) s]
                    have hcode : codeOf (some r) = some c := by simp [codeOf, hc]
                    constructor
                    · rintro ⟨hall, hnd, hdis, hs⟩
                      refine ⟨?_, ?_, ?_, ?_⟩
                      · intro e' he'
                        rcases List.mem_cons.mp he' with rfl | he'
                        · rw [hok]
                          simp only [decide_eq_true_eq]
                          exact ⟨not_lt.mp h20, not_lt.mp hmax⟩
                        · exact hall e' he'
                      · simp only [List.map_cons, List.nodup_cons, hcode]
                        exact ⟨hdis c (by simp), hnd⟩
                      · intro d hd
                        simp only [List.map_cons, List.mem_cons, hcode]
                        rintro (h | h)
                        · exact hseen (by rw [Option.some_inj.mp h] at hd; exact hd)
                        · exact hdis d (by simp [hd]) h
                      · simp only [List.map_cons, List.sum_cons, gramsQOf, hg]
                        rw [hs]; ring
                    · rintro ⟨hall, hnd, hdis, hs⟩
                      simp only [List.map_cons, List.nodup_cons, hcode] at hnd
                      refine ⟨?_, hnd.2, ?_, ?_⟩
                      · intro e' he'
                        exact hall e' (by simp [he'])
                      · intro d hd
                        rcases List.mem_cons.mp hd with rfl | hd
                        · exact hnd.1
                        · intro hmem
                          exact hdis d hd (by simp only [List.map_cons, List.mem_cons]; right; exact hmem)
                      · simp only [List.map_cons, List.sum_cons, gramsQOf, hg] at hs
                        rw [hs]; ring
              | .pinf =>
                rw [hg] at hint
                exact absurd hint.2 (by simp [XNum.isIntegerV])
              | .ninf =>
                rw [hg] at hint
                exact absurd hint.2 (by simp [XNum.isIntegerV])
              | .nan =>
                rw [hg] at hint
                exact absurd hint.2 (by simp [XNum.isIntegerV])
            · simp only [validateComps, hc, ho, if_neg hseen, if_pos hint]
              constructor
              · intro h; exact absurd h (by simp)
              · rintro ⟨hall, _⟩
                have := hall (some r) (by simp)
                simp only [specEntryOK, hc, ho, Bool.and_eq_true] at this
                exact (hint ⟨this.1.1, this.1.2⟩).elim

/-- The validator accepts exactly the spec-valid recipes. -/
theorem validateStrict_ok_iff (recipe : RawRecipe) (sizeG : ℤ) (m : Catalog) :
    validateStrict recipe sizeG m = .ok () ↔ specValidRecipe recipe sizeG m = true := by
  match recipe with
  | none => simp [validateStrict, specValidRecipe]
  | some l =>
    by_cases hlen : l.length < 2 ∨ l.length > 5
    · simp only [validateStrict, if_pos hlen, specValidRecipe]
      constructor
      · intro h; exact absurd h (by simp)
      · intro h
        simp only [Bool.and_eq_true, decide_eq_true_eq] at h
        omega
    · simp only [validateStrict, if_neg hlen, specValidRecipe]
      match hv : validateComps m [] 0 l with
      | .error e =>
        constructor
        · intro h; exact absurd h (by simp)
        · intro h
          simp only [Bool.and_eq_true, decide_eq_true_eq, List.all_eq_true] at h
          obtain ⟨⟨⟨⟨_, _⟩, hall⟩, hnd⟩, hsum⟩ := h
          have := (validateComps_ok_iff m l [] 0 ((l.map gramsQOf).sum)).mpr
            ⟨hall, hnd, by simp, by ring⟩
          rw [hv] at this
          exact absurd this (by simp)
      | .ok s =>
        have hiff := (validateComps_ok_iff m l [] 0 s).mp hv
        by_cases hs : s = (sizeG : ℚ)
        · simp only [if_pos hs]
          obtain ⟨hall, hnd, _, hsum⟩ := hiff
          simp only [Bool.and_eq_true, decide_eq_true_eq, List.all_eq_true]
          constructor
          · intro _
            refine ⟨⟨⟨⟨by omega, by omega⟩, hall⟩, hnd⟩, ?_⟩
            rw [← hs, hsum]; ring
          · intro _; trivial
        · simp only [if_neg hs]
          constructor
          · intro h; exact absurd h (by simp)
          · intro h
            simp only [Bool.and_eq_true, decide_eq_true_eq, List.all_eq_true] at h
            obtain ⟨hall, hnd, _, hsum⟩ := hiff
            exact (hs (by rw [hsum, h.2]; ring)).elim

-- ================== Concrete fixtures ==================

/-- A one-ingredient catalog with ample stock. -/
def catA1 : Catalog := [⟨"A", 1000, 1⟩]

/-- A two-ingredient catalog with ample stock (costs as in the pricing
example). -/
def catAB : Catalog := [⟨"A", 1000, 85 / 100⟩, ⟨"B", 1000, 95 / 100⟩]

/-- A three-ingredient catalog with 100 grams of stock each. -/
def catABC : Catalog := [⟨"A", 100, 1⟩, ⟨"B", 100, 2⟩, ⟨"C", 100, 3⟩]

-- ================== Claim C4: the validator ==================

/-- The seven failure messages the validator is specified to produce. -/
def validatorMessages (sizeG : ℤ) : List String :=
  ["recipe must have 2..5 items", "unknown origin_code", "duplicate origin_code",
   "grams must be integer", "min 20g per origin", "exceeds stock maxGrams",
   "grams sum must be exactly " ++ toString sizeG]

/-- On a list without null entries, the per-component loop only ever throws
one of the five per-component messages. -/
theorem validateComps_error_mem (m : Catalog) (l : List (Option RawComp))
    (hnon : ∀ e ∈ l, e ≠ none) :
    ∀ (seen : List String) (s₀ : ℚ) (err : String), validateComps m seen s₀ l = .error err →
      err ∈ ["unknown origin_code", "duplicate origin_code", "grams must be integer",
             "min 20g per origin", "exceeds stock maxGrams"] := by
  induction l with
  | nil =>
    intro seen s₀ err h
    exact absurd h (by simp [validateComps])
  | cons e rs ih =>
    intro seen s₀ err h
    match e with
    | none => exact absurd rfl (hnon none (by simp))
    | some r =>
      have hrs : ∀ e ∈ rs, e ≠ none := fun e he => hnon e (by simp [he])
      rw [validateComps] at h
      split at h
      · simp only [Except.error.injEq] at h
        simp [← h]
      · split at h
        · simp only [Except.error.injEq] at h
          simp [← h]
        · split at h
          · simp only [Except.error.injEq] at h
            simp [← h]
          · split at h
            · simp only [Except.error.injEq] at h
              simp [← h]
            · split at h
              · split at h
                · simp only [Except.error.injEq] at h
                  simp [← h]
                · split at h
                  · simp only [Except.error.injEq] at h
                    simp [← h]
                  · exact ih hrs _ _ err h
              · simp only [Except.error.injEq] at h
                simp [← h]

/-- Claim C4 (amended): the Validator succeeds if and only if the recipe is
a list of 2 to 5 components with pairwise-distinct catalog codes and
integer quantities in `[20, stock]` summing exactly to the requested total;
and whenever a recipe without null entries is rejected, the thrown message
is one of the seven documented failure reasons.  (A null entry instead
crashes with a TypeError, which is the correction; the function is pure in
either case.) -/
theorem claim_C4 (recipe : RawRecipe) (sizeG : ℤ) (m : Catalog) :
    (validateStrict recipe sizeG m = .ok () ↔ specValidRecipe recipe sizeG m = true) ∧
    ((∀ e ∈ recipe.getD [], e ≠ none) →
      ∀ err, validateStrict recipe sizeG m = .error err → err ∈ validatorMessages sizeG) := by
  refine ⟨validateStrict_ok_iff recipe sizeG m, ?_⟩
  intro hnon err h
  match recipe with
  | none =>
    simp only [validateStrict, Except.error.injEq] at h
    simp [validatorMessages, ← h]
  | some l =>
    rw [validateStrict] at h
    split at h
    · simp only [Except.error.injEq] at h
      simp [validatorMessages, ← h]
    · split at h
      · rename_i e' he'
        have := validateComps_error_mem m l (by simpa using hnon) [] 0 e' he'
        simp only [Except.error.injEq] at h
        rw [← h]
        simp only [validatorMessages, List.mem_cons] at this ⊢
        tauto
      · split at h
        · exact absurd h (by simp)
        · simp only [Except.error.injEq] at h
          simp [validatorMessages, ← h]

/-- Claim C4, counterexample to the claim as stated: a recipe whose entries
are null is rejected with a TypeError, not with one of the seven documented
failure reasons. -/
theorem claim_C4_counterexample :
    validateStrict (some [none, none]) 40 catAB =
        .error "TypeError: cannot read origin_code of null" ∧
      "TypeError: cannot read origin_code of null" ∉ validatorMessages 40 := by
  constructor
  · rfl
  · decide

/-- Claim C4, witness: the amended theorem applied to a concrete valid
recipe and to a concrete invalid one. -/
theorem claim_C4_witness :
    validateStrict (toRawRecipe [⟨"A", .fin 100⟩, ⟨"B", .fin 150⟩]) 250 catAB = .ok () ∧
      "unknown origin_code" ∈ validatorMessages 250 := by
  constructor
  · exact (claim_C4 (toRawRecipe [⟨"A", .fin 100⟩, ⟨"B", .fin 150⟩]) 250 catAB).1.mpr (by decide)
  · exact (claim_C4 (some [some ⟨some "Z", ⟨true, .fin 125⟩⟩, some ⟨some "B", ⟨true, .fin 125⟩⟩]) 250
      catAB).2 (by decide) "unknown origin_code" (by rfl)

-- ================== Claim C7: the pricing example ==================

/-- The recipe `{A:120, B:130}` of the pricing example. -/
def exampleRecipe : List (Option RawComp) :=
  [CompX.toRaw ⟨"A", .fin 120⟩, CompX.toRaw ⟨"B", .fin 130⟩]

/-- Claim C7, counterexample to the claim as stated: with
`costPerUnit(A) = 0.85`, `costPerUnit(B) = 0.95`, packaging 15 and margin
0.15, the code prices `{A:120, B:130}` at bean cost `225.5` (not `226.3`)
and final total `275` (not `280`): even the claims own pre-round figure
`277.495` would round to `275` under `Math.round(v / 5) * 5`. -/
theorem claim_C7_counterexample :
    (∃ p, priceBlend exampleRecipe catAB = .ok p ∧
        p.beanCost = .fin (2255 / 10) ∧ p.total = .fin 275 ∧
        p.beanCost ≠ .fin (2263 / 10) ∧ p.total ≠ .fin 280) ∧
      roundToNearest5 (.fin (277495 / 1000)) = .fin 275 := by
  refine ⟨⟨_, rfl, by decide, by decide, by decide, by decide⟩, by decide⟩

/-- Claim C7 (amended): for the recipe `{A:120, B:130}` with unit costs
0.85 and 0.95, packaging 15 and margin 0.15, the Cost Calculator yields
bean cost `225.5`, subtotal `240.5`, pre-round amount `276.575`
(displayed to cents), and a final total of `275`, the pre-round amount
rounded to the nearest multiple of 5. -/
theorem claim_C7 :
    ∃ p, priceBlend exampleRecipe catAB = .ok p ∧
      p.beanCost = .fin (2255 / 10) ∧ p.subtotal = .fin (2405 / 10) ∧
      p.total = .fin 275 ∧ p.total = roundToNearest5 (.fin (276575 / 1000)) := by
  exact ⟨_, rfl, by decide, by decide, by decide, by decide⟩

-- ================== Claim C10: pricing totality ==================

/-- Whether an entry carries a code present in the catalog. -/
def knownEntry (m : Catalog) (e : Option RawComp) : Bool :=
  match codeOf e with
  | some c => (findOrigin m c).isSome
  | none => false

/-- On a list without null entries the bean-cost reduce never throws, and
entries with unknown codes contribute nothing to it. -/
theorem beanCostFold_filter (m : Catalog) (l : List (Option RawComp)) :
    ∀ acc, (∀ e ∈ l, e ≠ none) →
      beanCostFold m acc l = beanCostFold m acc (l.filter (knownEntry m)) ∧
        ∃ x, beanCostFold m acc l = .ok x := by
  induction l with
  | nil => intro acc _; exact ⟨rfl, _, rfl⟩
  | cons e rs ih =>
    intro acc hnon
    have hrs : ∀ e ∈ rs, e ≠ none := fun e he => hnon e (by simp [he])
    match e with
    | none => exact absurd rfl (hnon none (by simp))
    | some r =>
      match hc : r.origin_code with
      | none =>
        have hk : knownEntry m (some r) = false := by simp [knownEntry, codeOf, hc]
        simp only [beanCostFold, hc, List.filter_cons, hk, Bool.false_eq_true, if_neg]
        · exact ih acc hrs
      | some c =>
        match ho : findOrigin m c with
        | none =>
          have hk : knownEntry m (some r) = false := by simp [knownEntry, codeOf, hc, ho]
          simp only [beanCostFold, hc, ho, List.filter_cons, hk, Bool.false_eq_true, if_neg]
          · exact ih acc hrs
        | some o =>
          have hk : knownEntry m (some r) = true := by simp [knownEntry, codeOf, hc, ho]
          simp only [beanCostFold, hc, ho, List.filter_cons, hk, if_pos]
          exact ih (acc.add (r.grams.val.mul (.fin o.costPerG))) hrs

/-- Claim C10 (amended): on any recipe list whose entries are objects
(possibly with unknown codes, duplicate codes, or arbitrary quantities),
`priceBlend` returns a result rather than throwing, and that result is
exactly the price of the sub-list of components with known codes — unknown
components contribute zero.  (A `null` entry instead crashes reading its
`origin_code`, which is the correction.) -/
theorem claim_C10 (l : List (Option RawComp)) (m : Catalog) (hnon : ∀ e ∈ l, e ≠ none) :
    ∃ p, priceBlend l m = .ok p ∧ priceBlend (l.filter (knownEntry m)) m = .ok p := by
  obtain ⟨heq, x, hx⟩ := beanCostFold_filter m l (.fin 0) hnon
  refine ⟨{ beanCost := x.toFixed2, packagingCost := PACKAGING_COST, marginPct := MARGIN_PCT,
            subtotal := (x.add (.fin PACKAGING_COST)).toFixed2,
            preRound := ((x.add (.fin PACKAGING_COST)).mul (.fin (1 + MARGIN_PCT))).toFixed2,
            total := roundToNearest5 ((x.add (.fin PACKAGING_COST)).mul (.fin (1 + MARGIN_PCT))) },
        ?_, ?_⟩
  · unfold priceBlend
    rw [hx]
    rfl
  · unfold priceBlend
    rw [← heq, hx]
    rfl

/-- Claim C10, counterexample to the claim as stated: on a recipe list
containing a null entry, pricing throws instead of being total. -/
theorem claim_C10_counterexample :
    priceBlend [none] catAB = .error "TypeError: cannot read origin_code of null" := by
  rfl

/-- Claim C10, witness: the amended theorem applied to a list mixing a
known code, a missing code and an unknown code. -/
theorem claim_C10_witness :
    ∃ p, priceBlend [some ⟨some "A", ⟨true, .fin 100⟩⟩, some ⟨none, ⟨true, .fin 7⟩⟩,
        some ⟨some "Z", ⟨false, .nan⟩⟩] catAB = .ok p ∧
      priceBlend ([some ⟨some "A", ⟨true, .fin 100⟩⟩, some ⟨none, ⟨true, .fin 7⟩⟩,
        some ⟨some "Z", ⟨false, .nan⟩⟩].filter (knownEntry catAB)) catAB = .ok p := by
  exact claim_C10 _ catAB (by decide)

-- ================== Claim C9: worker retry budget ==================

/-- Claim C9 (confirmed): when the orchestrator raises for a leased job,
the worker requeues the job — status back to `queued`, both lease fields
cleared, the error recorded — exactly when the incremented attempt count is
strictly below the max-attempt budget; otherwise it marks the job
permanently failed with the error recorded.  (The attempt counter itself
was already bumped right after leasing.) -/
theorem claim_C9 (j : JobRec) (e : String) (maxAttempts : ℕ) :
    (j.attempts + 1 < maxAttempts →
      workerSettle j (.error e) maxAttempts =
        { j with status := "queued", attempts := j.attempts + 1, error := some e,
                 locked_at := none, locked_by := none }) ∧
    (maxAttempts ≤ j.attempts + 1 →
      workerSettle j (.error e) maxAttempts =
        { j with status := "failed", attempts := j.attempts + 1, error := some e }) := by
  constructor
  · intro h
    simp [workerSettle, bumpAttempts, requeueJob, if_pos h]
  · intro h
    simp [workerSettle, bumpAttempts, markJobFailed, if_neg (not_lt.mpr h)]

/-- Claim C9, witness: both branches of the theorem at concrete attempt
counts against a budget of 2. -/
theorem claim_C9_witness :
    workerSettle ⟨"running", 0, none, none, some 7, some "w"⟩ (.error "boom") 2 =
        ⟨"queued", 1, some "boom", none, none, none⟩ ∧
      workerSettle ⟨"running", 1, none, none, some 7, some "w"⟩ (.error "boom") 2 =
        ⟨"failed", 2, some "boom", none, some 7, some "w"⟩ := by
  constructor
  · exact (claim_C9 ⟨"running", 0, none, none, some 7, some "w"⟩ "boom" 2).1 (by decide)
  · exact (claim_C9 ⟨"running", 1, none, none, some 7, some "w"⟩ "boom" 2).2 (by decide)

-- ================== Claim C8: leasing mutual exclusion ==================

/-- The reachability invariant of two workers racing on one queued job:
either the job is still queued, unleased, and neither call has returned;
or the job is running, carries the lease timestamp, and exactly one worker
— the one recorded in `locked_by` — got it. -/
def LeaseInv (t : ℕ) (idA idB : String) (s : LeaseSys) : Prop :=
  (s.job.status = "queued" ∧ s.job.locked_by = none ∧ s.job.locked_at = none ∧
      s.p0 ≠ Phase.doneGot ∧ s.p0 ≠ Phase.doneNot ∧
      s.p1 ≠ Phase.doneGot ∧ s.p1 ≠ Phase.doneNot) ∨
  (s.job.status = "running" ∧ s.job.locked_at = some t ∧
      ((s.p0 = Phase.doneGot ∧ s.job.locked_by = some idA ∧ s.p1 ≠ Phase.doneGot) ∨
       (s.p1 = Phase.doneGot ∧ s.job.locked_by = some idB ∧ s.p0 ≠ Phase.doneGot)))

/-- Every interleaving step preserves the leasing invariant. -/
theorem leaseInv_step (t : ℕ) (idA idB : String) (w : Bool) (s : LeaseSys)
    (h : LeaseInv t idA idB s) : LeaseInv t idA idB (leaseSysStep t idA idB w s) := by
  rcases h with ⟨hq, hlb, hla, h0g, h0n, h1g, h1n⟩ | ⟨hr, hla, hcase⟩
  · cases w
    · match h0 : s.p0 with
      | .start =>
        left
        simp [leaseSysStep, leaseStep, h0, if_pos hq, hq, hlb, hla, h1g, h1n]
      | .picked =>
        right
        simp [leaseSysStep, leaseStep, h0, if_pos hq, h1g]
      | .doneGot => exact absurd h0 h0g
      | .doneNot => exact absurd h0 h0n
    · match h1 : s.p1 with
      | .start =>
        left
        simp [leaseSysStep, leaseStep, h1, if_pos hq, hq, hlb, hla, h0g, h0n]
      | .picked =>
        right
        simp [leaseSysStep, leaseStep, h1, if_pos hq, h0g]
      | .doneGot => exact absurd h1 h1g
      | .doneNot => exact absurd h1 h1n
  · have hnq : s.job.status ≠ "queued" := by rw [hr]; decide
    rcases hcase with ⟨h0, hlb, h1⟩ | ⟨h1, hlb, h0⟩
    · cases w
      · right
        simp only [leaseSysStep, leaseStep, h0]
        exact ⟨hr, hla, Or.inl ⟨trivial, hlb, h1⟩⟩
      · match hp : s.p1 with
        | .start =>
          right
          simp only [leaseSysStep, leaseStep, hp, if_neg hnq]
          exact ⟨hr, hla, Or.inl ⟨h0, hlb, by decide⟩⟩
        | .picked =>
          right
          simp only [leaseSysStep, leaseStep, hp, if_neg hnq]
          exact ⟨hr, hla, Or.inl ⟨h0, hlb, by decide⟩⟩
        | .doneGot => exact absurd hp h1
        | .doneNot =>
          right
          simp only [leaseSysStep, leaseStep, hp]
          exact ⟨hr, hla, Or.inl ⟨h0, hlb, by decide⟩⟩
    · cases w
      · match hp : s.p0 with
        | .start =>
          right
          simp only [leaseSysStep, leaseStep, hp, if_neg hnq]
          exact ⟨hr, hla, Or.inr ⟨h1, hlb, by decide⟩⟩
        | .picked =>
          right
          simp only [leaseSysStep, leaseStep, hp, if_neg hnq]
          exact ⟨hr, hla, Or.inr ⟨h1, hlb, by decide⟩⟩
        | .doneGot => exact absurd hp h0
        | .doneNot =>
          right
          simp only [leaseSysStep, leaseStep, hp]
          exact ⟨hr, hla, Or.inr ⟨h1, hlb, by decide⟩⟩
      · right
        simp only [leaseSysStep, leaseStep, h1]
        exact ⟨hr, hla, Or.inr ⟨trivial, hlb, h0⟩⟩

/-- The invariant holds after running any schedule from an invariant
state. -/
theorem leaseInv_run (t : ℕ) (idA idB : String) (sched : List Bool) :
    ∀ (s : LeaseSys), LeaseInv t idA idB s → LeaseInv t idA idB (leaseRun t idA idB sched s) := by
  induction sched with
  | nil => intro s h; exact h
  | cons w ws ih =>
    intro s h
    exact ih (leaseSysStep t idA idB w s) (leaseInv_step t idA idB w s h)

/-- Claim C8 (confirmed): starting from a queued, unleased job, under any
interleaving of two workers claim attempts in which both calls have
returned, exactly one worker got the job — the job is `running`, carries
the lease timestamp and that workers identity — and the other call
observed no job available.  The only state change is the conditional
update that requires the status to still be `queued`. -/
theorem claim_C8 (t : ℕ) (idA idB : String) (j : JobRec) (sched : List Bool) (s : LeaseSys)
    (hq : j.status = "queued") (hlb : j.locked_by = none) (hla : j.locked_at = none)
    (hs : leaseRun t idA idB sched (leaseInit j) = s)
    (hdone0 : s.p0.isDone = true) (hdone1 : s.p1.isDone = true) :
    s.job.status = "running" ∧ s.job.locked_at = some t ∧
      ((s.p0 = Phase.doneGot ∧ s.p1 = Phase.doneNot ∧ s.job.locked_by = some idA) ∨
       (s.p1 = Phase.doneGot ∧ s.p0 = Phase.doneNot ∧ s.job.locked_by = some idB)) := by
  have hinit : LeaseInv t idA idB (leaseInit j) := by
    left
    exact ⟨hq, hlb, hla, by simp [leaseInit], by simp [leaseInit], by simp [leaseInit],
      by simp [leaseInit]⟩
  have hinv := leaseInv_run t idA idB sched (leaseInit j) hinit
  rw [hs] at hinv
  rcases hinv with ⟨_, _, _, h0g, h0n, _, _⟩ | ⟨hr, hla2, hcase⟩
  · match hp : s.p0 with
    | .start => rw [hp] at hdone0; exact absurd hdone0 (by decide)
    | .picked => rw [hp] at hdone0; exact absurd hdone0 (by decide)
    | .doneGot => exact absurd hp h0g
    | .doneNot => exact absurd hp h0n
  · refine ⟨hr, hla2, ?_⟩
    rcases hcase with ⟨h0, hlb2, h1⟩ | ⟨h1, hlb2, h0⟩
    · left
      refine ⟨h0, ?_, hlb2⟩
      match hp : s.p1 with
      | .start => rw [hp] at hdone1; exact absurd hdone1 (by decide)
      | .picked => rw [hp] at hdone1; exact absurd hdone1 (by decide)
      | .doneGot => exact absurd hp h1
      | .doneNot => rfl
    · right
      refine ⟨h1, ?_, hlb2⟩
      match hp : s.p0 with
      | .start => rw [hp] at hdone0; exact absurd hdone0 (by decide)
      | .picked => rw [hp] at hdone0; exact absurd hdone0 (by decide)
      | .doneGot => exact absurd hp h0
      | .doneNot => rfl

/-- Claim C8, witness: a concrete schedule in which worker 0 selects and
claims the job, then worker 1 attempts and observes no job available. -/
theorem claim_C8_witness :
    (leaseRun 5 "w0" "w1" [false, false, true, true]
        (leaseInit ⟨"queued", 0, none, none, none, none⟩)).job.status = "running" ∧
      (leaseRun 5 "w0" "w1" [false, false, true, true]
        (leaseInit ⟨"queued", 0, none, none, none, none⟩)).job.locked_at = some 5 ∧
      (((leaseRun 5 "w0" "w1" [false, false, true, true]
          (leaseInit ⟨"queued", 0, none, none, none, none⟩)).p0 = Phase.doneGot ∧
        (leaseRun 5 "w0" "w1" [false, false, true, true]
          (leaseInit ⟨"queued", 0, none, none, none, none⟩)).p1 = Phase.doneNot ∧
        (leaseRun 5 "w0" "w1" [false, false, true, true]
          (leaseInit ⟨"queued", 0, none, none, none, none⟩)).job.locked_by = some "w0") ∨
       ((leaseRun 5 "w0" "w1" [false, false, true, true]
          (leaseInit ⟨"queued", 0, none, none, none, none⟩)).p1 = Phase.doneGot ∧
        (leaseRun 5 "w0" "w1" [false, false, true, true]
          (leaseInit ⟨"queued", 0, none, none, none, none⟩)).p0 = Phase.doneNot ∧
        (leaseRun 5 "w0" "w1" [false, false, true, true]
          (leaseInit ⟨"queued", 0, none, none, none, none⟩)).job.locked_by = some "w1")) := by
  exact claim_C8 5 "w0" "w1" ⟨"queued", 0, none, none, none, none⟩ [false, false, true, true]
    (leaseRun 5 "w0" "w1" [false, false, true, true]
      (leaseInit ⟨"queued", 0, none, none, none, none⟩))
    rfl rfl rfl rfl (by decide) (by decide)

-- ================== Sorting and stage lemmas ==================

/-- Inserting into the sorted prefix is a permutation. -/
theorem insertDesc_perm (x : CompX) (l : List CompX) : (insertDesc x l).Perm (x :: l) := by
  induction l with
  | nil => exact List.Perm.refl _
  | cons y ys ih =>
    rw [insertDesc]
    by_cases h : gramsGt x.grams y.grams
    · rw [if_pos h]
    · rw [if_neg h]
      exact (ih.cons y).trans (List.Perm.swap x y ys)

/-- The sorting fold is a permutation. -/
theorem foldl_insertDesc_perm (l : List CompX) :
    ∀ (acc : List CompX), (List.foldl (fun a x => insertDesc x a) acc l).Perm (l ++ acc) := by
  induction l with
  | nil => intro acc; exact List.Perm.refl _
  | cons x xs ih =>
    intro acc
    have h1 := ih (insertDesc x acc)
    have h2 : (xs ++ insertDesc x acc).Perm (xs ++ (x :: acc)) :=
      (insertDesc_perm x acc).append_left xs
    exact (h1.trans h2).trans List.perm_middle

/-- The grams sort permutes its input. -/
theorem sortGramsDesc_perm (l : List CompX) : (sortGramsDesc l).Perm l := by
  have := foldl_insertDesc_perm l []
  simpa [sortGramsDesc] using this

/-- A component of the repair pipeline that already satisfies every
per-component invariant. -/
def GoodComp (m : Catalog) (c : CompX) : Prop :=
  ∃ o, findOrigin m c.code = some o ∧
    ∃ g : ℚ, c.grams = .fin g ∧ g.den = 1 ∧ 20 ≤ g ∧ g ≤ (o.maxGrams : ℚ)

/-- The finite quantity of a clean component (0 as junk default). -/
def gq : CompX → ℚ
  | c =>
    match c.grams with
    | .fin g => g
    | _ => 0

/-- What spec-validity of an embedded clean recipe means componentwise. -/
theorem specValid_toRaw (l : List CompX) (sizeG : ℤ) (m : Catalog)
    (h : specValidRecipe (toRawRecipe l) sizeG m = true) :
    (∀ c ∈ l, GoodComp m c) ∧ (l.map CompX.code).Nodup ∧
      2 ≤ l.length ∧ l.length ≤ 5 ∧ (l.map gq).sum = (sizeG : ℚ) := by
  simp only [specValidRecipe, toRawRecipe, Bool.and_eq_true, decide_eq_true_eq,
    List.all_eq_true, List.length_map] at h
  obtain ⟨⟨⟨⟨h2, h5⟩, hall⟩, hnd⟩, hsum⟩ := h
  refine ⟨?_, ?_, h2, h5, ?_⟩
  · intro c hc
    have := hall (CompX.toRaw c) (List.mem_map_of_mem CompX.toRaw hc)
    simp only [specEntryOK, CompX.toRaw] at this
    match ho : findOrigin m c.code with
    | none => rw [ho] at this; exact absurd this (by simp)
    | some o =>
      rw [ho] at this
      simp only [Bool.and_eq_true] at this
      match hg : c.grams with
      | .fin g =>
        rw [hg] at this
        simp only [decide_eq_true_eq] at this
        exact ⟨o, ho, g, hg, by simpa [XNum.isIntegerV] using this.1.2, this.2.1, this.2.2⟩
      | .pinf => rw [hg] at this; exact absurd this.2 (by simp)
      | .ninf => rw [hg] at this; exact absurd this.2 (by simp)
      | .nan => rw [hg] at this; exact absurd this.2 (by simp)
  · have hmap : (l.map CompX.toRaw).map codeOf = l.map (fun c => some c.code) := by
      simp [codeOf, CompX.toRaw, Function.comp]
    rw [hmap] at hnd
    have : l.map (fun c => some c.code) = (l.map CompX.code).map some := by
      simp [Function.comp]
    rw [this] at hnd
    exact hnd.of_map some
  · have : (l.map CompX.toRaw).map gramsQOf = l.map gq := by
      simp only [List.map_map]
      apply List.map_congr_left
      intro c _
      simp only [Function.comp, gramsQOf, CompX.toRaw, gq]
    rw [this] at hsum
    exact hsum

/-- Normalisation fixes nothing on an in-range integer quantity. -/
theorem fixGrams_id (g : ℚ) (hden : g.den = 1) (h20 : 20 ≤ g) :
    fixGrams ⟨true, .fin g⟩ = .fin g := by
  have hne : g ≠ 0 := by intro h0; rw [h0] at h20; norm_num at h20
  have hint : ((g.num : ℚ)) = g := by
    conv_rhs => rw [← Rat.num_div_den g]
    rw [hden]
    norm_num
  have hfl : ((⌊g⌋ : ℤ) : ℚ) = g := by
    rw [← hint, Int.floor_intCast]
  simp only [fixGrams, XNum.orDefault, if_neg hne, XNum.floor, XNum.maxc, XNum.fin.injEq]
  rw [hfl]
  exact max_eq_right h20

/-- The filter-and-normalise pass is the identity on a list of good
components embedded back as raw entries. -/
theorem autofixFilterMap_id (m : Catalog) (l : List CompX) (h : ∀ c ∈ l, GoodComp m c) :
    autofixFilterMap m (l.map CompX.toRaw) = l := by
  induction l with
  | nil => rfl
  | cons c cs ih =>
    obtain ⟨o, ho, g, hg, hden, h20, _⟩ := h c (by simp)
    have hrest : ∀ x ∈ cs, GoodComp m x := fun x hx => h x (by simp [hx])
    simp only [List.map_cons, autofixFilterMap, CompX.toRaw, ho, Option.isSome_some, if_pos]
    rw [ih hrest]
    have : fixGrams ⟨true, c.grams⟩ = c.grams := by rw [hg]; exact fixGrams_id g hden h20
    rw [this]

/-- The duplicate filter keeps everything when the codes are already
distinct and disjoint from the seen set. -/
theorem dedupAux_id (l : List CompX) :
    ∀ seen, (l.map CompX.code).Nodup → (∀ c ∈ l, c.code ∉ seen) → (dedupAux seen l).1 = l := by
  induction l with
  | nil => intro seen _ _; rfl
  | cons r rs ih =>
    intro seen hnd hdis
    simp only [List.map_cons, List.nodup_cons] at hnd
    have hns : r.code ∉ seen := hdis r (by simp)
    simp only [dedupAux, if_neg hns]
    rw [ih (r.code :: seen) hnd.2]
    intro c hc
    simp only [List.mem_cons]
    rintro (h | h)
    · exact hnd.1 (h ▸ List.mem_map_of_mem CompX.code hc)
    · exact hdis c (by simp [hc]) h

/-- The stock clamp fixes nothing on good components. -/
theorem clampStock_id (m : Catalog) (l : List CompX) (h : ∀ c ∈ l, GoodComp m c) :
    clampStock m l = .ok l := by
  induction l with
  | nil => rfl
  | cons c cs ih =>
    obtain ⟨o, ho, g, hg, _, _, hmax⟩ := h c (by simp)
    have hrest : ∀ x ∈ cs, GoodComp m x := fun x hx => h x (by simp [hx])
    simp only [clampStock, ho, ih hrest]
    have : c.grams.minc (o.maxGrams : ℚ) = c.grams := by
      rw [hg]
      simp only [XNum.minc, XNum.fin.injEq]
      exact min_eq_left hmax
    rw [this]
    rfl

/-- The running sum over components with finite quantities. -/
theorem sumGrams_aux (l : List CompX) :
    (∀ c ∈ l, ∃ g : ℚ, c.grams = .fin g) →
    ∀ a : ℚ, List.foldl (fun (s : XNum) (r : CompX) => s.add r.grams) (XNum.fin a) l =
      XNum.fin (a + (l.map gq).sum) := by
  induction l with
  | nil => intro _ a; simp
  | cons c cs ih =>
    intro h a
    obtain ⟨g, hg⟩ := h c (by simp)
    have hrest : ∀ x ∈ cs, ∃ g : ℚ, x.grams = .fin g := fun x hx => h x (by simp [hx])
    simp only [List.foldl_cons, List.map_cons, List.sum_cons]
    rw [hg]
    show List.foldl (fun (s : XNum) (r : CompX) => s.add r.grams) (XNum.fin (a + g)) cs = _
    rw [ih hrest (a + g)]
    congr 1
    simp only [gq, hg]
    ring

/-- The reduce of quantities, as a finite rational, on a finite-quantity
list. -/
theorem sumGrams_fin (l : List CompX) (h : ∀ c ∈ l, ∃ g : ℚ, c.grams = .fin g) :
    sumGrams l = .fin ((l.map gq).sum) := by
  have := sumGrams_aux l h 0
  simpa [sumGrams] using this

/-- Reduction of a bind on a successful step. -/
theorem except_bind_ok {α β : Type} (a : α) (f : α → Except String β) :
    (Except.ok a >>= f) = f a := rfl

/-- The adjustment loop exits immediately when the sum is already exact. -/
theorem adjustLoop_done (m : Catalog) (sizeG : ℤ) (fuel : ℕ) (sum : XNum) (l : List CompX)
    (h : sum = .fin (sizeG : ℚ)) : adjustLoop m sizeG fuel sum l = .ok l := by
  cases fuel with
  | zero => rfl
  | succ n => simp only [adjustLoop, if_pos h]

-- ================== Claim C6: repair on valid input ==================

/-- Claim C6 (amended): repairing an already-valid recipe returns exactly
the same components with the same quantities, but reordered: the output is
the input stably sorted by quantity descending (a permutation of the
input), not the input list itself. -/
theorem claim_C6 (l : List CompX) (sizeG : ℤ) (m : Catalog)
    (hv : validateStrict (toRawRecipe l) sizeG m = .ok ()) :
    autofixBestAttempt (toRawRecipe l) sizeG m = .ok (sortGramsDesc l) ∧
      (sortGramsDesc l).Perm l := by
  have hspec := (validateStrict_ok_iff _ _ _).mp hv
  obtain ⟨hgood, hnd, h2, h5, hsum⟩ := specValid_toRaw l sizeG m hspec
  have hperm : (sortGramsDesc l).Perm l := sortGramsDesc_perm l
  refine ⟨?_, hperm⟩
  have hgood2 : ∀ c ∈ sortGramsDesc l, GoodComp m c := fun c hc => hgood c (hperm.mem_iff.mp hc)
  have hnd2 : ((sortGramsDesc l).map CompX.code).Nodup := ((hperm.map CompX.code).nodup_iff).mpr hnd
  have hlen : (sortGramsDesc l).length = l.length := hperm.length_eq
  have hdd : (dedupAux [] (sortGramsDesc l)).1 = sortGramsDesc l :=
    dedupAux_id (sortGramsDesc l) [] hnd2 (by simp)
  have htake : (sortGramsDesc l).take 5 = sortGramsDesc l :=
    List.take_of_length_le (by omega)
  have happ : appendCheapest m (sortGramsDesc l) (dedupAux [] (sortGramsDesc l)).2 =
      sortGramsDesc l := by
    unfold appendCheapest
    rw [if_neg (by omega)]
  have hprep : autofixPrepare (toRawRecipe l) m = .ok (sortGramsDesc l) := by
    simp only [autofixPrepare]
    rw [show (toRawRecipe l).getD [] = l.map CompX.toRaw from rfl]
    rw [autofixFilterMap_id m l hgood, hdd, htake, happ]
    exact clampStock_id m (sortGramsDesc l) hgood2
  have hsls : sumGrams (sortGramsDesc l) = .fin ((sizeG : ℤ) : ℚ) := by
    rw [sumGrams_fin (sortGramsDesc l) (fun c hc => by
      obtain ⟨o, _, g, hg, _⟩ := hgood2 c hc
      exact ⟨g, hg⟩)]
    rw [(hperm.map gq).sum_eq, hsum]
  simp only [autofixBestAttempt]
  rw [hprep, except_bind_ok, adjustLoop_done m sizeG 12000 _ _ hsls, except_bind_ok, if_pos hsls]

/-- Claim C6, counterexample to the claim as stated: a valid recipe whose
quantities are in ascending order comes back from the repair engine with
its components reordered, not unchanged. -/
theorem claim_C6_counterexample :
    validateStrict (toRawRecipe [⟨"A", .fin 30⟩, ⟨"B", .fin 220⟩]) 250 catAB = .ok () ∧
      autofixBestAttempt (toRawRecipe [⟨"A", .fin 30⟩, ⟨"B", .fin 220⟩]) 250 catAB =
        .ok [⟨"B", .fin 220⟩, ⟨"A", .fin 30⟩] ∧
      ([⟨"B", .fin 220⟩, ⟨"A", .fin 30⟩] : List CompX) ≠ [⟨"A", .fin 30⟩, ⟨"B", .fin 220⟩] := by
  exact ⟨rfl, rfl, by decide⟩

/-- Claim C6, witness: the amended theorem applied to that same valid
recipe. -/
theorem claim_C6_witness :
    autofixBestAttempt (toRawRecipe [⟨"A", .fin 30⟩, ⟨"B", .fin 220⟩]) 250 catAB =
        .ok (sortGramsDesc [⟨"A", .fin 30⟩, ⟨"B", .fin 220⟩]) ∧
      (sortGramsDesc [⟨"A", .fin 30⟩, ⟨"B", .fin 220⟩]).Perm
        [⟨"A", .fin 30⟩, ⟨"B", .fin 220⟩] := by
  exact claim_C6 [⟨"A", .fin 30⟩, ⟨"B", .fin 220⟩] 250 catAB rfl

-- ================== Repair pipeline invariants ==================

/-- What holds of every component after the filter-and-normalise pass:
a known code and a normalised quantity (an integer of at least 20, or
positive infinity). -/
def PreP (m : Catalog) (c : CompX) : Prop :=
  (findOrigin m c.code).isSome ∧
    (c.grams = .pinf ∨ ∃ k : ℤ, c.grams = .fin (k : ℚ) ∧ 20 ≤ k)

/-- What holds of every component after the stock clamp and throughout the
adjustment loop: a known code and an integer quantity in `[20, maxGrams]`
of the matching catalog entry. -/
def LoopInvC (m : Catalog) (c : CompX) : Prop :=
  ∃ o, findOrigin m c.code = some o ∧
    ∃ k : ℤ, c.grams = .fin (k : ℚ) ∧ 20 ≤ k ∧ k ≤ o.maxGrams

/-- The grams normalisation always lands on an integer of at least 20
(or positive infinity, clamped later). -/
theorem fixGrams_range (g : GramsVal) :
    fixGrams g = .pinf ∨ ∃ k : ℤ, fixGrams g = .fin (k : ℚ) ∧ 20 ≤ k := by
  match hv : g.val with
  | .fin q =>
    by_cases hq : q = 0
    · right
      refine ⟨20, ?_, by norm_num⟩
      simp only [fixGrams, hv, XNum.orDefault, if_pos hq, XNum.floor, XNum.maxc, XNum.fin.injEq]
      norm_num
    · right
      refine ⟨max 20 ⌊q⌋, ?_, le_max_left _ _⟩
      simp only [fixGrams, hv, XNum.orDefault, if_neg hq, XNum.floor, XNum.maxc, XNum.fin.injEq]
      push_cast
      rfl
  | .pinf =>
    left
    simp [fixGrams, hv, XNum.orDefault, XNum.floor, XNum.maxc]
  | .ninf =>
    right
    refine ⟨20, ?_, by norm_num⟩
    simp [fixGrams, hv, XNum.orDefault, XNum.floor, XNum.maxc]
  | .nan =>
    right
    refine ⟨20, ?_, by norm_num⟩
    simp only [fixGrams, hv, XNum.orDefault, XNum.floor, XNum.maxc, XNum.fin.injEq]
    norm_num

/-- Every component surviving the filter-and-normalise pass satisfies the
pre-clamp invariant. -/
theorem autofixFilterMap_props (m : Catalog) (l : List (Option RawComp)) :
    ∀ c ∈ autofixFilterMap m l, PreP m c := by
  induction l with
  | nil => intro c hc; exact absurd hc (by simp [autofixFilterMap])
  | cons e rs ih =>
    intro c hc
    match e with
    | none => exact ih c (by simpa [autofixFilterMap] using hc)
    | some r =>
      match hcode : r.origin_code with
      | none =>
        simp only [autofixFilterMap, hcode] at hc
        exact ih c hc
      | some cd =>
        simp only [autofixFilterMap, hcode] at hc
        by_cases hk : (findOrigin m cd).isSome
        · rw [if_pos hk] at hc
          rcases List.mem_cons.mp hc with rfl | hc
          · exact ⟨hk, fixGrams_range r.grams⟩
          · exact ih c hc
        · rw [if_neg hk] at hc
          exact ih c hc

/-- The kept list of the duplicate filter is a subset of its input. -/
theorem dedupAux_fst_mem (l : List CompX) :
    ∀ seen c, c ∈ (dedupAux seen l).1 → c ∈ l := by
  induction l with
  | nil => intro seen c hc; exact absurd hc (by simp [dedupAux])
  | cons r rs ih =>
    intro seen c hc
    rw [dedupAux] at hc
    by_cases hs : r.code ∈ seen
    · rw [if_pos hs] at hc
      exact List.mem_cons_of_mem r (ih seen c hc)
    · rw [if_neg hs] at hc
      rcases List.mem_cons.mp hc with rfl | hc
      · exact List.mem_cons_self _ _
      · exact List.mem_cons_of_mem r (ih (r.code :: seen) c hc)

/-- The kept list of the duplicate filter has pairwise-distinct codes, all
outside the seen set. -/
theorem dedupAux_fst_nodup (l : List CompX) :
    ∀ seen, ((dedupAux seen l).1.map CompX.code).Nodup ∧
      ∀ c ∈ (dedupAux seen l).1, c.code ∉ seen := by
  induction l with
  | nil => intro seen; simp [dedupAux]
  | cons r rs ih =>
    intro seen
    rw [dedupAux]
    by_cases hs : r.code ∈ seen
    · rw [if_pos hs]
      exact ih seen
    · rw [if_neg hs]
      obtain ⟨hnd, hdis⟩ := ih (r.code :: seen)
      refine ⟨?_, ?_⟩
      · simp only [List.map_cons, List.nodup_cons]
        refine ⟨?_, hnd⟩
        intro hmem
        obtain ⟨c, hc, hcc⟩ := List.mem_map.mp hmem
        exact hdis c hc (by simp [hcc])
      · intro c hc
        rcases List.mem_cons.mp hc with rfl | hc
        · exact hs
        · intro hmem
          exact hdis c hc (by simp [hmem])

/-- Membership in the `used` set produced by the duplicate filter. -/
theorem dedupAux_snd_mem (l : List CompX) :
    ∀ seen x, x ∈ (dedupAux seen l).2 ↔ x ∈ (dedupAux seen l).1.map CompX.code ∨ x ∈ seen := by
  induction l with
  | nil => intro seen x; simp [dedupAux]
  | cons r rs ih =>
    intro seen x
    rw [dedupAux]
    by_cases hs : r.code ∈ seen
    · rw [if_pos hs]
      rw [ih seen x]
    · rw [if_neg hs]
      simp only [List.map_cons, List.mem_cons]
      rw [ih (r.code :: seen) x]
      simp only [List.mem_cons]
      tauto

/-- Inserting into the cost-sorted prefix is a permutation. -/
theorem insertAscCost_perm (x : Origin) (l : List Origin) :
    (insertAscCost x l).Perm (x :: l) := by
  induction l with
  | nil => exact List.Perm.refl _
  | cons y ys ih =>
    rw [insertAscCost]
    by_cases h : x.costPerG < y.costPerG
    · rw [if_pos h]
    · rw [if_neg h]
      exact (ih.cons y).trans (List.Perm.swap x y ys)

/-- The cost sort permutes the catalog. -/
theorem sortByCost_perm (m : Catalog) : (sortByCost m).Perm m := by
  have haux : ∀ (l : List Origin) (acc : List Origin),
      (List.foldl (fun a x => insertAscCost x a) acc l).Perm (l ++ acc) := by
    intro l
    induction l with
    | nil => intro acc; exact List.Perm.refl _
    | cons x xs ih =>
      intro acc
      have h1 := ih (insertAscCost x acc)
      have h2 : (xs ++ insertAscCost x acc).Perm (xs ++ (x :: acc)) :=
        (insertAscCost_perm x acc).append_left xs
      exact (h1.trans h2).trans List.perm_middle
  have := haux m []
  simpa [sortByCost] using this

/-- A successful catalog lookup returns a member carrying the looked-up
code. -/
theorem findOrigin_mem (m : Catalog) (c : String) (o : Origin)
    (h : findOrigin m c = some o) : o ∈ m ∧ o.code = c := by
  refine ⟨List.mem_of_find?_eq_some h, ?_⟩
  have := List.find?_some h
  exact eq_of_beq this

/-- A catalog member is always found under its own code. -/
theorem mem_findOrigin_isSome (m : Catalog) (o : Origin) (h : o ∈ m) :
    (findOrigin m o.code).isSome := by
  rw [findOrigin, List.find?_isSome]
  exact ⟨o, h, by simp⟩

/-- The finite-quantity embedding of the integer 20. -/
theorem fin20_int : (XNum.fin 20) = XNum.fin ((20 : ℤ) : ℚ) := by norm_num

/-- The top-up step returns a list of 2 to 5 components that still satisfy
the pre-clamp invariant with pairwise-distinct codes, provided the catalog
has at least two (distinct-code) ingredients and `used` is exactly the
code set of the input whenever the input is short. -/
theorem appendCheapest_props (m : Catalog) (fixed : List CompX) (used : List String)
    (hm2 : 2 ≤ m.length) (hmnd : (m.map Origin.code).Nodup)
    (hfix : ∀ c ∈ fixed, PreP m c)
    (hnd : (fixed.map CompX.code).Nodup)
    (hused : fixed.length < 2 → ∀ x, (x ∈ used ↔ x ∈ fixed.map CompX.code))
    (hlen5 : fixed.length ≤ 5) :
    (∀ c ∈ appendCheapest m fixed used, PreP m c) ∧
      ((appendCheapest m fixed used).map CompX.code).Nodup ∧
      2 ≤ (appendCheapest m fixed used).length ∧ (appendCheapest m fixed used).length ≤ 5 := by
  by_cases hl2 : fixed.length < 2
  · rw [appendCheapest, if_pos hl2]
    have hiff := hused hl2
    have hperm := sortByCost_perm m
    have hslen : (sortByCost m).length = m.length := hperm.length_eq
    match hsrt : sortByCost m with
    | [] => rw [hsrt] at hslen; simp at hslen; omega
    | [s0] => rw [hsrt] at hslen; simp at hslen; omega
    | s0 :: s1 :: rest =>
      rw [hsrt] at hperm
      have hs0m : s0 ∈ m := hperm.mem_iff.mp (by simp)
      have hs1m : s1 ∈ m := hperm.mem_iff.mp (by simp)
      have hsnd : ((s0 :: s1 :: rest).map Origin.code).Nodup :=
        ((hperm.map Origin.code).nodup_iff).mpr hmnd
      have hs01 : s0.code ≠ s1.code := by
        simp only [List.map_cons, List.nodup_cons, List.mem_cons, List.mem_map] at hsnd
        intro h
        exact hsnd.1 (Or.inl h)
      have hP0 : PreP m ⟨s0.code, .fin 20⟩ := by
        refine ⟨mem_findOrigin_isSome m s0 hs0m, Or.inr ⟨20, ?_, by norm_num⟩⟩
        exact fin20_int
      have hP1 : PreP m ⟨s1.code, .fin 20⟩ := by
        refine ⟨mem_findOrigin_isSome m s1 hs1m, Or.inr ⟨20, ?_, by norm_num⟩⟩
        exact fin20_int
      simp only [List.head?_cons, List.get?_cons_succ, List.get?_cons_zero]
      by_cases h0u : s0.code ∈ used
      · -- cheapest already present: fixed has exactly one component, with code s0.code
        have h0c : s0.code ∈ fixed.map CompX.code := (hiff s0.code).mp h0u
        have hfx1 : fixed.length = 1 := by
          have h01 : fixed.length = 0 ∨ fixed.length = 1 := by omega
          rcases h01 with h | h
          · rw [List.length_eq_zero.mp h] at h0c; simp at h0c
          · exact h
        rw [if_pos h0u]
        have h1u : s1.code ∉ used := by
          intro h1u
          have h1c := (hiff s1.code).mp h1u
          obtain ⟨f0, hfx⟩ := List.length_eq_one.mp hfx1
          rw [hfx] at h0c h1c
          simp only [List.map_cons, List.map_nil, List.mem_singleton] at h0c h1c
          exact hs01 (h0c.trans h1c.symm)
        rw [if_pos ⟨hl2, h1u⟩]
        refine ⟨?_, ?_, ?_, ?_⟩
        · intro c hc
          rcases List.mem_append.mp hc with hc | hc
          · exact hfix c hc
          · rw [List.mem_singleton.mp hc]; exact hP1
        · rw [List.map_append]
          rw [List.nodup_append]
          refine ⟨hnd, by simp, ?_⟩
          intro x hx
          simp only [List.map_cons, List.map_nil, List.mem_singleton]
          intro hx1
          exact h1u ((hiff s1.code).mpr (hx1 ▸ hx))
        · simp [hfx1]
        · simp [hfx1]
      · rw [if_neg h0u]
        by_cases hfx0 : fixed.length = 0
        · have hfxnil : fixed = [] := List.length_eq_zero.mp hfx0
          subst hfxnil
          have h1u : s1.code ∉ used := by
            intro h1u
            have := (hiff s1.code).mp h1u
            simp at this
          simp only [List.nil_append, List.length_singleton]
          rw [if_pos ⟨by norm_num, h1u⟩]
          refine ⟨?_, ?_, by simp, by simp⟩
          · intro c hc
            rcases List.mem_cons.mp hc with rfl | hc
            · exact hP0
            · rw [List.mem_singleton.mp hc]; exact hP1
          · simp [hs01]
        · have hfx1 : fixed.length = 1 := by omega
          have hlen2 : (fixed ++ [(⟨s0.code, .fin 20⟩ : CompX)]).length = 2 := by
            simp [hfx1]
          rw [if_neg (by rw [hlen2]; omega)]
          refine ⟨?_, ?_, by rw [hlen2], by rw [hlen2]; norm_num⟩
          · intro c hc
            rcases List.mem_append.mp hc with hc | hc
            · exact hfix c hc
            · rw [List.mem_singleton.mp hc]; exact hP0
          · rw [List.map_append, List.nodup_append]
            refine ⟨hnd, by simp, ?_⟩
            intro x hx
            simp only [List.map_cons, List.map_nil, List.mem_singleton]
            intro hx0
            exact h0u (hx0 ▸ (hiff x).mpr hx)
  · rw [appendCheapest, if_neg hl2]
    exact ⟨hfix, hnd, by omega, hlen5⟩

/-- The stock clamp succeeds on pre-clamp components and produces the loop
invariant, preserving codes and length, when every stock ceiling is at
least the minimum quantity. -/
theorem clampStock_props (m : Catalog) (hm20 : ∀ o ∈ m, 20 ≤ o.maxGrams) (l : List CompX)
    (h : ∀ c ∈ l, PreP m c) :
    ∃ out, clampStock m l = .ok out ∧ (∀ c ∈ out, LoopInvC m c) ∧
      out.map CompX.code = l.map CompX.code ∧ out.length = l.length := by
  induction l with
  | nil => exact ⟨[], rfl, by simp, rfl, rfl⟩
  | cons c cs ih =>
    obtain ⟨hsome, hg⟩ := h c (by simp)
    obtain ⟨o, ho⟩ := Option.isSome_iff_exists.mp hsome
    obtain ⟨out, hout, hinv, hcodes, hlen⟩ := ih (fun x hx => h x (by simp [hx]))
    have hom := findOrigin_mem m c.code o ho
    have homax : 20 ≤ o.maxGrams := hm20 o hom.1
    have hnew : LoopInvC m ⟨c.code, c.grams.minc (o.maxGrams : ℚ)⟩ := by
      refine ⟨o, ho, ?_⟩
      rcases hg with hg | ⟨k, hk, h20⟩
      · refine ⟨o.maxGrams, ?_, homax, le_refl _⟩
        rw [hg]
        rfl
      · refine ⟨min k o.maxGrams, ?_, le_min h20 homax, min_le_right _ _⟩
        rw [hk]
        simp only [XNum.minc, XNum.fin.injEq]
        push_cast
        rfl
    refine ⟨⟨c.code, c.grams.minc (o.maxGrams : ℚ)⟩ :: out, ?_, ?_, ?_, ?_⟩
    · simp only [clampStock, ho, hout, except_bind_ok]
    · intro x hx
      rcases List.mem_cons.mp hx with rfl | hx
      · exact hnew
      · exact hinv x hx
    · simp [hcodes]
    · simp [hlen]

/-- The preparation phase, when it returns, yields 2 to 5 components
satisfying the loop invariant with pairwise-distinct codes — under the
catalog conditions: at least two ingredients, distinct codes, and every
stock ceiling at least 20. -/
theorem autofixPrepare_props (m : Catalog) (hm2 : 2 ≤ m.length)
    (hm20 : ∀ o ∈ m, 20 ≤ o.maxGrams) (hmnd : (m.map Origin.code).Nodup)
    (recipe : RawRecipe) (prep : List CompX)
    (hprep : autofixPrepare recipe m = .ok prep) :
    (∀ c ∈ prep, LoopInvC m c) ∧ ((prep.map CompX.code).Nodup) ∧
      2 ≤ prep.length ∧ prep.length ≤ 5 := by
  simp only [autofixPrepare] at hprep
  have hP0 : ∀ c ∈ autofixFilterMap m (recipe.getD []), PreP m c :=
    autofixFilterMap_props m (recipe.getD [])
  have hPs : ∀ c ∈ sortGramsDesc (autofixFilterMap m (recipe.getD [])), PreP m c :=
    fun c hc => hP0 c ((sortGramsDesc_perm _).mem_iff.mp hc)
  have hPd : ∀ c ∈ (dedupAux [] (sortGramsDesc (autofixFilterMap m (recipe.getD [])))).1,
      PreP m c :=
    fun c hc => hPs c (dedupAux_fst_mem _ [] c hc)
  have hndd := (dedupAux_fst_nodup (sortGramsDesc (autofixFilterMap m (recipe.getD []))) []).1
  have hPt : ∀ c ∈ (dedupAux [] (sortGramsDesc (autofixFilterMap m (recipe.getD [])))).1.take 5,
      PreP m c :=
    fun c hc => hPd c (List.take_subset 5 _ hc)
  have hndt : (((dedupAux [] (sortGramsDesc (autofixFilterMap m (recipe.getD [])))).1.take
      5).map CompX.code).Nodup := by
    rw [List.map_take]
    exact hndd.sublist (List.take_sublist 5 _)
  have hlen5 : ((dedupAux [] (sortGramsDesc (autofixFilterMap m (recipe.getD [])))).1.take
      5).length ≤ 5 := by
    simp [List.length_take]
  have hused : ((dedupAux [] (sortGramsDesc (autofixFilterMap m (recipe.getD [])))).1.take
        5).length < 2 →
      ∀ x, (x ∈ (dedupAux [] (sortGramsDesc (autofixFilterMap m (recipe.getD [])))).2 ↔
        x ∈ ((dedupAux [] (sortGramsDesc (autofixFilterMap m
          (recipe.getD [])))).1.take 5).map CompX.code) := by
    intro hlt x
    have hlena : (dedupAux [] (sortGramsDesc (autofixFilterMap m (recipe.getD [])))).1.length
        < 2 := by
      rw [List.length_take] at hlt
      omega
    have htk : (dedupAux [] (sortGramsDesc (autofixFilterMap m (recipe.getD [])))).1.take 5 =
        (dedupAux [] (sortGramsDesc (autofixFilterMap m (recipe.getD [])))).1 :=
      List.take_of_length_le (by omega)
    rw [htk]
    rw [dedupAux_snd_mem _ [] x]
    simp
  obtain ⟨hPa, hnda, h2a, h5a⟩ := appendCheapest_props m _ _ hm2 hmnd hPt hndt hused hlen5
  obtain ⟨out, hout, hinv, hcodes, hlen⟩ := clampStock_props m hm20 _ hPa
  rw [hout] at hprep
  have : out = prep := by
    injection hprep
  subst this
  refine ⟨hinv, ?_, ?_, ?_⟩
  · rw [hcodes]; exact hnda
  · omega
  · omega

/-- Deciding the strict comparison between finite values. -/
theorem ltb_fin_fin (a b : ℚ) : XNum.ltb (.fin a) (.fin b) = decide (a < b) := rfl

/-- The `findIndex` of the adjustment loop, on components with known
codes, either returns no index and no component can move, or returns the
index of a component that can move in the wanted direction. -/
theorem findAdjIdx_spec (m : Catalog) (inc : Bool) (l : List CompX)
    (h : ∀ c ∈ l, (findOrigin m c.code).isSome) :
    (findAdjIdx m inc l = .ok none ∧
      ∀ c ∈ l, ∀ o, findOrigin m c.code = some o →
        (if inc then XNum.ltb c.grams (.fin (o.maxGrams : ℚ))
         else XNum.ltb (.fin 20) c.grams) = false) ∨
    (∃ i c o, findAdjIdx m inc l = .ok (some i) ∧ l.get? i = some c ∧
      findOrigin m c.code = some o ∧
      (if inc then XNum.ltb c.grams (.fin (o.maxGrams : ℚ))
       else XNum.ltb (.fin 20) c.grams) = true) := by
  induction l with
  | nil =>
    left
    exact ⟨rfl, by simp⟩
  | cons c cs ih =>
    obtain ⟨o, ho⟩ := Option.isSome_iff_exists.mp (h c (by simp))
    by_cases hcond : (if inc then XNum.ltb c.grams (.fin (o.maxGrams : ℚ))
        else XNum.ltb (.fin 20) c.grams) = true
    · right
      refine ⟨0, c, o, ?_, rfl, ho, hcond⟩
      simp only [findAdjIdx, ho]
      rw [if_pos hcond]
    · rcases ih (fun x hx => h x (by simp [hx])) with ⟨hnone, hall⟩ | ⟨i, c1, o1, hsome, hget, ho1, hcond1⟩
      · left
        constructor
        · simp only [findAdjIdx, ho]
          rw [if_neg hcond, hnone]
          rfl
        · intro x hx o2 ho2
          rcases List.mem_cons.mp hx with rfl | hx
          · rw [ho] at ho2
            injection ho2 with ho2
            subst ho2
            exact Bool.eq_false_iff.mpr hcond
          · exact hall x hx o2 ho2
      · right
        refine ⟨i + 1, c1, o1, ?_, hget, ho1, hcond1⟩
        simp only [findAdjIdx, ho]
        rw [if_neg hcond, hsome]
        rfl

/-- Bumping a quantity leaves the code list unchanged. -/
theorem bumpGrams_map_code (d : ℚ) (l : List CompX) :
    ∀ i, (bumpGrams d l i).map CompX.code = l.map CompX.code := by
  induction l with
  | nil => intro i; rfl
  | cons r rs ih =>
    intro i
    match i with
    | 0 => rfl
    | i + 1 => simp [bumpGrams, ih i]

/-- Bumping a quantity leaves the length unchanged. -/
theorem bumpGrams_length (d : ℚ) (l : List CompX) :
    ∀ i, (bumpGrams d l i).length = l.length := by
  induction l with
  | nil => intro i; rfl
  | cons r rs ih =>
    intro i
    match i with
    | 0 => rfl
    | i + 1 => simp [bumpGrams, ih i]

/-- A member of the bumped list is an old member or the bumped component. -/
theorem bumpGrams_mem (d : ℚ) (l : List CompX) :
    ∀ i x, x ∈ bumpGrams d l i →
      x ∈ l ∨ ∃ c, l.get? i = some c ∧ x = ⟨c.code, c.grams.add (.fin d)⟩ := by
  induction l with
  | nil => intro i x hx; exact absurd hx (by simp [bumpGrams])
  | cons r rs ih =>
    intro i x hx
    match i with
    | 0 =>
      rcases List.mem_cons.mp hx with rfl | hx
      · right
        exact ⟨r, rfl, rfl⟩
      · left
        exact List.mem_cons_of_mem r hx
    | i + 1 =>
      rcases List.mem_cons.mp hx with rfl | hx
      · left
        exact List.mem_cons_self _ _
      · rcases ih i x hx with hx | ⟨c, hc, hxc⟩
        · left
          exact List.mem_cons_of_mem r hx
        · right
          exact ⟨c, hc, hxc⟩

/-- Bumping a finite quantity shifts the quantity sum by the bump. -/
theorem bumpGrams_sum (d : ℚ) (l : List CompX) :
    ∀ i c g, l.get? i = some c → c.grams = .fin g →
      ((bumpGrams d l i).map gq).sum = (l.map gq).sum + d := by
  induction l with
  | nil => intro i c g hc; exact absurd hc (by simp)
  | cons r rs ih =>
    intro i c g hc hg
    match i with
    | 0 =>
      injection hc with hc
      subst hc
      simp only [bumpGrams, List.map_cons, List.sum_cons, gq, hg, XNum.add]
      ring
    | i + 1 =>
      simp only [bumpGrams, List.map_cons, List.sum_cons]
      rw [ih i c g hc hg]
      ring

/-- The bumped component keeps the loop invariant when its new quantity is
a witnessed in-range integer. -/
theorem bump_preserves_inv (m : Catalog) (l : List CompX) (i : ℕ) (c : CompX) (o : Origin)
    (k : ℤ) (hinv : ∀ x ∈ l, LoopInvC m x) (hget : l.get? i = some c)
    (ho : findOrigin m c.code = some o) (hk : c.grams = .fin (k : ℚ)) (d : ℚ)
    (hdk : ∃ k2 : ℤ, (k : ℚ) + d = (k2 : ℚ) ∧ 20 ≤ k2 ∧ k2 ≤ o.maxGrams) :
    ∀ x ∈ bumpGrams d l i, LoopInvC m x := by
  intro x hx
  rcases bumpGrams_mem d l i x hx with hx | ⟨c2, hc2, hxc⟩
  · exact hinv x hx
  · rw [hget] at hc2
    injection hc2 with hc2
    subst hc2
    subst hxc
    obtain ⟨k2, he, h20, hmax⟩ := hdk
    refine ⟨o, ho, k2, ?_, h20, hmax⟩
    rw [hk]
    simp only [XNum.add, XNum.fin.injEq]
    exact he

/-- The adjustment loop preserves the loop invariant, the distinct codes
and the length of the component list whenever it returns. -/
theorem adjustLoop_inv (m : Catalog) (sizeG : ℤ) :
    ∀ (fuel : ℕ) (sum : XNum) (l out : List CompX),
      (∀ c ∈ l, LoopInvC m c) → ((l.map CompX.code).Nodup) →
      adjustLoop m sizeG fuel sum l = .ok out →
      (∀ c ∈ out, LoopInvC m c) ∧ ((out.map CompX.code).Nodup) ∧ out.length = l.length := by
  intro fuel
  induction fuel with
  | zero =>
    intro sum l out hinv hnd h
    have : l = out := by injection h
    subst this
    exact ⟨hinv, hnd, rfl⟩
  | succ n ih =>
    intro sum l out hinv hnd h
    rw [adjustLoop] at h
    by_cases hs : sum = XNum.fin ((sizeG : ℤ) : ℚ)
    · rw [if_pos hs] at h
      have : l = out := by injection h
      subst this
      exact ⟨hinv, hnd, rfl⟩
    · rw [if_neg hs] at h
      simp only [] at h
      have hsome : ∀ c ∈ l, (findOrigin m c.code).isSome := by
        intro c hc
        obtain ⟨o, ho, _⟩ := hinv c hc
        simp [ho]
      rcases findAdjIdx_spec m (! XNum.ltb (.fin (sizeG : ℚ)) sum) l hsome with
        ⟨hnone, _⟩ | ⟨i, c, o, hsome2, hget, ho, hcond⟩
      · rw [hnone, except_bind_ok] at h
        have : l = out := by injection h
        subst this
        exact ⟨hinv, hnd, rfl⟩
      · rw [hsome2, except_bind_ok] at h
        simp only [] at h
        have hcm : c ∈ l := List.get?_mem hget
        obtain ⟨o2, ho2, k, hk, h20, hmax⟩ := hinv c hcm
        rw [ho] at ho2
        injection ho2 with ho2
        subst ho2
        have hbnd : ∀ d : ℚ, ((bumpGrams d l i).map CompX.code).Nodup := by
          intro d
          rw [bumpGrams_map_code]
          exact hnd
        rcases Bool.eq_false_or_eq_true (! XNum.ltb (.fin (sizeG : ℚ)) sum) with hbv | hbv
        · simp only [hbv] at h hcond
          norm_num at h hcond
          rw [hk, ltb_fin_fin] at hcond
          simp only [decide_eq_true_eq] at hcond
          have hklt : k < o.maxGrams := by exact_mod_cast hcond
          have hbinv := bump_preserves_inv m l i c o k hinv hget ho hk 1
            ⟨k + 1, by push_cast; ring, by omega, by omega⟩
          obtain ⟨h1, h2, h3⟩ := ih _ _ _ hbinv (hbnd 1) h
          exact ⟨h1, h2, by rw [h3, bumpGrams_length]⟩
        · simp only [hbv] at h hcond
          norm_num at h hcond
          rw [hk, ltb_fin_fin] at hcond
          simp only [decide_eq_true_eq] at hcond
          have hkgt : (20 : ℤ) < k := by exact_mod_cast hcond
          have hbinv := bump_preserves_inv m l i c o k hinv hget ho hk (-1)
            ⟨k - 1, by push_cast; ring, by omega, by omega⟩
          obtain ⟨h1, h2, h3⟩ := ih _ _ _ hbinv (hbnd (-1)) h
          exact ⟨h1, h2, by rw [h3, bumpGrams_length]⟩

/-- Reduction of a bind on a failed step. -/
theorem except_bind_error {α β : Type} (e : String) (f : α → Except String β) :
    (Except.error e >>= f) = (Except.error e : Except String β) := rfl

/-- Components satisfying the loop invariant with distinct codes, a length
of 2 to 5 and the exact sum form a spec-valid recipe. -/
theorem specValid_of_parts (m : Catalog) (l : List CompX) (sizeG : ℤ)
    (hinv : ∀ c ∈ l, LoopInvC m c) (hnd : (l.map CompX.code).Nodup)
    (h2 : 2 ≤ l.length) (h5 : l.length ≤ 5) (hsum : (l.map gq).sum = (sizeG : ℚ)) :
    specValidRecipe (toRawRecipe l) sizeG m = true := by
  simp only [specValidRecipe, toRawRecipe, Bool.and_eq_true, decide_eq_true_eq,
    List.all_eq_true, List.length_map]
  refine ⟨⟨⟨⟨h2, h5⟩, ?_⟩, ?_⟩, ?_⟩
  · intro e he
    obtain ⟨c, hc, rfl⟩ := List.mem_map.mp he
    obtain ⟨o, ho, k, hk, h20, hmax⟩ := hinv c hc
    simp only [specEntryOK, CompX.toRaw, ho, hk]
    simp only [Bool.and_eq_true, XNum.isIntegerV]
    refine ⟨⟨by trivial, ?_⟩, ?_⟩
    · simp
    · rw [decide_eq_true_eq]
      constructor
      · exact_mod_cast h20
      · exact_mod_cast hmax
  · have hmm : (l.map CompX.toRaw).map codeOf = (l.map CompX.code).map some := by
      simp [codeOf, CompX.toRaw, Function.comp]
    rw [hmm]
    exact hnd.map (Option.some_injective _)
  · have hmm : (l.map CompX.toRaw).map gramsQOf = l.map gq := by
      simp only [List.map_map]
      apply List.map_congr_left
      intro c _
      simp [Function.comp, gramsQOf, CompX.toRaw, gq]
    rw [hmm, hsum]

-- ================== Claim C1: repair output validity ==================

/-- Claim C1 (amended): for a catalog with at least two ingredients,
pairwise-distinct codes and every stock ceiling at least 20 grams,
whenever `autofixBestAttempt` returns a recipe (for any candidate recipe
and any requested total), that recipe passes `validateStrict` for the same
total and catalog.  Without the catalog conditions the guarantee fails
(single-ingredient catalog, or ceilings below the 20-gram minimum). -/
theorem claim_C1 (m : Catalog) (hm2 : 2 ≤ m.length) (hm20 : ∀ o ∈ m, 20 ≤ o.maxGrams)
    (hmnd : (m.map Origin.code).Nodup) (recipe : RawRecipe) (sizeG : ℤ) (out : List CompX)
    (hout : autofixBestAttempt recipe sizeG m = .ok out) :
    validateStrict (toRawRecipe out) sizeG m = .ok () := by
  simp only [autofixBestAttempt] at hout
  match hp : autofixPrepare recipe m with
  | .error e =>
    rw [hp, except_bind_error] at hout
    exact absurd hout (by simp)
  | .ok prep =>
    rw [hp, except_bind_ok] at hout
    obtain ⟨hinv, hnd, h2, h5⟩ := autofixPrepare_props m hm2 hm20 hmnd recipe prep hp
    match ha : adjustLoop m sizeG 12000 (sumGrams prep) prep with
    | .error e =>
      rw [ha, except_bind_error] at hout
      exact absurd hout (by simp)
    | .ok adj =>
      rw [ha, except_bind_ok] at hout
      obtain ⟨hinv2, hnd2, hlen2⟩ := adjustLoop_inv m sizeG 12000 _ prep adj hinv hnd ha
      by_cases hs : sumGrams adj = XNum.fin ((sizeG : ℤ) : ℚ)
      · rw [if_pos hs] at hout
        have : adj = out := by injection hout
        subst this
        have hfins : ∀ c ∈ adj, ∃ g : ℚ, c.grams = .fin g := by
          intro c hc
          obtain ⟨o, _, k, hk, _⟩ := hinv2 c hc
          exact ⟨k, hk⟩
        have hsg := sumGrams_fin adj hfins
        rw [hsg] at hs
        injection hs with hs
        exact (validateStrict_ok_iff _ _ _).mpr
          (specValid_of_parts m adj sizeG hinv2 hnd2 (by omega) (by omega) hs)
      · rw [if_neg hs] at hout
        exact absurd hout (by simp [throw, throwThe, MonadExceptOf.throw])

set_option maxRecDepth 100000 in
/-- Claim C1, counterexample to the claim as stated: against a loaded
single-ingredient catalog, the repair engine returns a one-component
recipe, which the validator rejects. -/
theorem claim_C1_counterexample :
    autofixBestAttempt (some []) 250 catA1 = .ok [⟨"A", .fin 250⟩] ∧
      validateStrict (toRawRecipe [⟨"A", .fin 250⟩]) 250 catA1 =
        .error "recipe must have 2..5 items" := by
  exact ⟨rfl, rfl⟩

set_option maxRecDepth 100000 in
/-- Claim C1, witness: the amended theorem applied to a malformed
single-component, over-stock candidate against a two-ingredient catalog. -/
theorem claim_C1_witness :
    validateStrict (toRawRecipe [⟨"A", .fin 230⟩, ⟨"B", .fin 20⟩]) 250 catAB = .ok () := by
  exact claim_C1 catAB (by decide) (by decide) (by decide)
    (some [some ⟨some "A", ⟨true, .fin 500⟩⟩]) 250 [⟨"A", .fin 230⟩, ⟨"B", .fin 20⟩] rfl

-- ================== Claim C2: when repair must succeed ==================

/-- The integer quantity of a loop component (its rational numerator; the
placeholder 0 otherwise). -/
def gz (c : CompX) : ℤ :=
  match c.grams with
  | .fin g => g.num
  | _ => 0

/-- The stock ceiling the loop sees for one component. -/
def maxOf (m : Catalog) (c : CompX) : ℤ :=
  ((findOrigin m c.code).map Origin.maxGrams).getD 0

/-- The aggregate stock ceiling of a component list. -/
def maxSum (m : Catalog) (l : List CompX) : ℤ := (l.map (maxOf m)).sum

/-- The rational quantity sum is the cast of the integer quantity sum on
invariant components. -/
theorem sum_gq_eq_gz (m : Catalog) (l : List CompX) (hinv : ∀ c ∈ l, LoopInvC m c) :
    (l.map gq).sum = (((l.map gz).sum : ℤ) : ℚ) := by
  induction l with
  | nil => simp
  | cons c cs ih =>
    obtain ⟨o, ho, k, hk, _, _⟩ := hinv c (by simp)
    have hrest := ih (fun x hx => hinv x (by simp [hx]))
    simp only [List.map_cons, List.sum_cons, hrest]
    have h1 : gq c = (k : ℚ) := by simp [gq, hk]
    have h2 : gz c = k := by simp [gz, hk]
    rw [h1, h2]
    push_cast
    ring

/-- All invariant components at exactly 20 grams sum to 20 per component. -/
theorem sum_gz_all20 (l : List CompX) (h : ∀ c ∈ l, gz c = 20) :
    (l.map gz).sum = 20 * (l.length : ℤ) := by
  induction l with
  | nil => simp
  | cons c cs ih =>
    simp only [List.map_cons, List.sum_cons, List.length_cons, h c (by simp),
      ih (fun x hx => h x (by simp [hx]))]
    push_cast
    ring

/-- All invariant components at their ceilings sum to the aggregate
ceiling. -/
theorem sum_gz_allmax (m : Catalog) (l : List CompX) (h : ∀ c ∈ l, gz c = maxOf m c) :
    (l.map gz).sum = maxSum m l := by
  induction l with
  | nil => simp [maxSum]
  | cons c cs ih =>
    simp only [List.map_cons, List.sum_cons, maxSum, h c (by simp)]
    have := ih (fun x hx => h x (by simp [hx]))
    rw [maxSum] at this
    rw [this]

/-- Bumping a quantity leaves every stock ceiling unchanged. -/
theorem bumpGrams_maxSum (m : Catalog) (d : ℚ) (l : List CompX) :
    ∀ i, maxSum m (bumpGrams d l i) = maxSum m l := by
  induction l with
  | nil => intro i; rfl
  | cons r rs ih =>
    intro i
    match i with
    | 0 => rfl
    | i + 1 =>
      simp only [bumpGrams, maxSum, List.map_cons, List.sum_cons]
      have := ih i
      rw [maxSum] at this
      rw [this]
      rfl

/-- Bumping an invariant component by an integer shifts the integer
quantity sum by that integer. -/
theorem bumpGrams_sum_gz (d : ℤ) (l : List CompX) :
    ∀ i c (k : ℤ), l.get? i = some c → c.grams = .fin (k : ℚ) →
      ((bumpGrams (d : ℚ) l i).map gz).sum = (l.map gz).sum + d := by
  induction l with
  | nil => intro i c k hc; exact absurd hc (by simp)
  | cons r rs ih =>
    intro i c k hc hk
    match i with
    | 0 =>
      injection hc with hc
      subst hc
      simp only [bumpGrams, List.map_cons, List.sum_cons, gz, hk, XNum.add]
      have heq : ((k : ℚ) + (d : ℚ)) = ((k + d : ℤ) : ℚ) := by push_cast; ring
      rw [heq]
      simp only [Rat.num_intCast]
      ring
    | i + 1 =>
      simp only [bumpGrams, List.map_cons, List.sum_cons]
      rw [ih i c k hc hk]
      ring

/-- When the prepared components can reach the requested total within
their per-component bounds and the needed number of unit adjustments fits
in the fuel, the adjustment loop reaches the exact total. -/
theorem adjustLoop_success (m : Catalog) (sizeG : ℤ) :
    ∀ (fuel : ℕ) (l : List CompX),
      (∀ c ∈ l, LoopInvC m c) →
      20 * (l.length : ℤ) ≤ sizeG → sizeG ≤ maxSum m l →
      ((l.map gz).sum - sizeG).natAbs ≤ fuel →
      ∃ out, adjustLoop m sizeG fuel (.fin (((l.map gz).sum : ℤ) : ℚ)) l = .ok out ∧
        sumGrams out = .fin ((sizeG : ℤ) : ℚ) := by
  intro fuel
  induction fuel with
  | zero =>
    intro l hinv hlow hhigh hfuel
    have hS : (l.map gz).sum = sizeG := by omega
    refine ⟨l, rfl, ?_⟩
    have hfins : ∀ c ∈ l, ∃ g : ℚ, c.grams = .fin g := by
      intro c hc
      obtain ⟨o, _, k, hk, _⟩ := hinv c hc
      exact ⟨k, hk⟩
    rw [sumGrams_fin l hfins, sum_gq_eq_gz m l hinv, hS]
  | succ n ih =>
    intro l hinv hlow hhigh hfuel
    by_cases hS : (l.map gz).sum = sizeG
    · refine ⟨l, ?_, ?_⟩
      · exact adjustLoop_done m sizeG (n + 1) _ l (by rw [hS])
      · have hfins : ∀ c ∈ l, ∃ g : ℚ, c.grams = .fin g := by
          intro c hc
          obtain ⟨o, _, k, hk, _⟩ := hinv c hc
          exact ⟨k, hk⟩
        rw [sumGrams_fin l hfins, sum_gq_eq_gz m l hinv, hS]
    · have hne : XNum.fin (((l.map gz).sum : ℤ) : ℚ) ≠ XNum.fin ((sizeG : ℤ) : ℚ) := by
        intro h
        injection h with h
        exact hS (by exact_mod_cast h)
      have hsome : ∀ c ∈ l, (findOrigin m c.code).isSome := by
        intro c hc
        obtain ⟨o, ho, _⟩ := hinv c hc
        simp [ho]
      by_cases hlt : sizeG < (l.map gz).sum
      · -- sum above target: some component is above the minimum
        have hd : decide (((sizeG : ℤ) : ℚ) < (((l.map gz).sum : ℤ) : ℚ)) = true :=
          decide_eq_true (by exact_mod_cast hlt)
        have hb : (! XNum.ltb (.fin ((sizeG : ℤ) : ℚ)) (.fin (((l.map gz).sum : ℤ) : ℚ))) =
            false := by
          rw [ltb_fin_fin, hd]
          rfl
        have hex : ∃ c ∈ l, 20 < gz c := by
          by_contra hno
          push_neg at hno
          have hall20 : ∀ c ∈ l, gz c = 20 := by
            intro c hc
            obtain ⟨o, ho, k, hk, h20, _⟩ := hinv c hc
            have : gz c = k := by simp [gz, hk]
            have := hno c hc
            omega
          have := sum_gz_all20 l hall20
          omega
        rcases findAdjIdx_spec m (! XNum.ltb (.fin ((sizeG : ℤ) : ℚ))
            (.fin (((l.map gz).sum : ℤ) : ℚ))) l hsome with ⟨_, hall⟩ | hgot
        · exfalso
          obtain ⟨c, hc, hgz⟩ := hex
          obtain ⟨o, ho, k, hk, h20, hmax⟩ := hinv c hc
          have := hall c hc o ho
          rw [hb] at this
          norm_num at this
          rw [hk, ltb_fin_fin] at this
          simp only [decide_eq_false_iff_not] at this
          have hkz : gz c = k := by simp [gz, hk]
          rw [hkz] at hgz
          exact this (by exact_mod_cast hgz)
        · obtain ⟨i, c, o, hsome2, hget, ho, hcond⟩ := hgot
          obtain ⟨o2, ho2, k, hk, h20, hmax⟩ := hinv c (List.get?_mem hget)
          rw [ho] at ho2
          injection ho2 with ho2
          subst ho2
          rw [hb] at hcond
          norm_num at hcond
          rw [hk, ltb_fin_fin] at hcond
          simp only [decide_eq_true_eq] at hcond
          have hkgt : (20 : ℤ) < k := by exact_mod_cast hcond
          have hbinv := bump_preserves_inv m l i c o k hinv hget ho hk (-1)
            ⟨k - 1, by push_cast; ring, by omega, by omega⟩
          have hsum2 := bumpGrams_sum_gz (-1) l i c k hget hk
          norm_num at hsum2
          have hlen2 : (bumpGrams (-1 : ℚ) l i).length = l.length := bumpGrams_length _ l i
          have hmax2 : maxSum m (bumpGrams (-1 : ℚ) l i) = maxSum m l :=
            bumpGrams_maxSum m _ l i
          obtain ⟨out, hloop, hsumout⟩ := ih (bumpGrams (-1 : ℚ) l i) hbinv
            (by rw [hlen2]; omega) (by rw [hmax2]; omega) (by rw [hsum2]; omega)
          refine ⟨out, ?_, hsumout⟩
          have harg : (XNum.fin (((l.map gz).sum : ℤ) : ℚ)).add (.fin (-1)) =
              XNum.fin ((((bumpGrams (-1 : ℚ) l i).map gz).sum : ℤ) : ℚ) := by
            rw [hsum2]
            simp only [XNum.add, XNum.fin.injEq]
            push_cast
            ring
          have hstep : adjustLoop m sizeG (n + 1) (XNum.fin (((l.map gz).sum : ℤ) : ℚ)) l =
              adjustLoop m sizeG n ((XNum.fin (((l.map gz).sum : ℤ) : ℚ)).add (.fin (-1)))
                (bumpGrams (-1 : ℚ) l i) := by
            rw [adjustLoop, if_neg hne]
            simp only []
            rw [hsome2, except_bind_ok]
            simp only [hb]
            norm_num
          rw [hstep, harg]
          exact hloop
      · -- sum below target: some component is below its ceiling
        have hgt : (l.map gz).sum < sizeG := by omega
        have hd : decide (((sizeG : ℤ) : ℚ) < (((l.map gz).sum : ℤ) : ℚ)) = false :=
          decide_eq_false (fun hcon => hlt (by exact_mod_cast hcon))
        have hb : (! XNum.ltb (.fin ((sizeG : ℤ) : ℚ)) (.fin (((l.map gz).sum : ℤ) : ℚ))) =
            true := by
          rw [ltb_fin_fin, hd]
          rfl
        have hex : ∃ c ∈ l, gz c < maxOf m c := by
          by_contra hno
          push_neg at hno
          have hallmax : ∀ c ∈ l, gz c = maxOf m c := by
            intro c hc
            obtain ⟨o, ho, k, hk, _, hmax⟩ := hinv c hc
            have h1 : gz c = k := by simp [gz, hk]
            have h2 : maxOf m c = o.maxGrams := by simp [maxOf, ho]
            have := hno c hc
            omega
          have := sum_gz_allmax m l hallmax
          omega
        rcases findAdjIdx_spec m (! XNum.ltb (.fin ((sizeG : ℤ) : ℚ))
            (.fin (((l.map gz).sum : ℤ) : ℚ))) l hsome with ⟨_, hall⟩ | hgot
        · exfalso
          obtain ⟨c, hc, hgz⟩ := hex
          obtain ⟨o, ho, k, hk, h20, hmax⟩ := hinv c hc
          have := hall c hc o ho
          rw [hb] at this
          norm_num at this
          rw [hk, ltb_fin_fin] at this
          simp only [decide_eq_false_iff_not] at this
          have hkz : gz c = k := by simp [gz, hk]
          have hmo : maxOf m c = o.maxGrams := by simp [maxOf, ho]
          rw [hkz, hmo] at hgz
          exact this (by exact_mod_cast hgz)
        · obtain ⟨i, c, o, hsome2, hget, ho, hcond⟩ := hgot
          obtain ⟨o2, ho2, k, hk, h20, hmax⟩ := hinv c (List.get?_mem hget)
          rw [ho] at ho2
          injection ho2 with ho2
          subst ho2
          rw [hb] at hcond
          norm_num at hcond
          rw [hk, ltb_fin_fin] at hcond
          simp only [decide_eq_true_eq] at hcond
          have hklt : k < o.maxGrams := by exact_mod_cast hcond
          have hbinv := bump_preserves_inv m l i c o k hinv hget ho hk 1
            ⟨k + 1, by push_cast; ring, by omega, by omega⟩
          have hsum2 := bumpGrams_sum_gz 1 l i c k hget hk
          norm_num at hsum2
          have hlen2 : (bumpGrams (1 : ℚ) l i).length = l.length := bumpGrams_length _ l i
          have hmax2 : maxSum m (bumpGrams (1 : ℚ) l i) = maxSum m l :=
            bumpGrams_maxSum m _ l i
          obtain ⟨out, hloop, hsumout⟩ := ih (bumpGrams (1 : ℚ) l i) hbinv
            (by rw [hlen2]; omega) (by rw [hmax2]; omega) (by rw [hsum2]; omega)
          refine ⟨out, ?_, hsumout⟩
          have harg : (XNum.fin (((l.map gz).sum : ℤ) : ℚ)).add (.fin 1) =
              XNum.fin ((((bumpGrams (1 : ℚ) l i).map gz).sum : ℤ) : ℚ) := by
            rw [hsum2]
            simp only [XNum.add, XNum.fin.injEq]
            push_cast
            ring
          have hstep : adjustLoop m sizeG (n + 1) (XNum.fin (((l.map gz).sum : ℤ) : ℚ)) l =
              adjustLoop m sizeG n ((XNum.fin (((l.map gz).sum : ℤ) : ℚ)).add (.fin 1))
                (bumpGrams (1 : ℚ) l i) := by
            rw [adjustLoop, if_neg hne]
            simp only []
            rw [hsome2, except_bind_ok]
            simp only [hb]
            norm_num
          rw [hstep, harg]
          exact hloop

/-- Claim C2 (amended): the repair engines terminal error is not limited
to insufficient aggregate catalog capacity — it can fire with ample
capacity (see the counterexample, where a valid recipe for the requested
total exists).  What does hold: whenever the prepared component list can
reach the requested total within its per-component bounds
(`20 * n ≤ total ≤ Σ stock ceilings`) in at most 12000 unit adjustments,
`autofixBestAttempt` returns a recipe instead of raising. -/
theorem claim_C2 (m : Catalog) (recipe : RawRecipe) (sizeG : ℤ) (prep : List CompX)
    (hm2 : 2 ≤ m.length) (hm20 : ∀ o ∈ m, 20 ≤ o.maxGrams)
    (hmnd : (m.map Origin.code).Nodup)
    (hprep : autofixPrepare recipe m = .ok prep)
    (hlow : 20 * (prep.length : ℤ) ≤ sizeG) (hhigh : sizeG ≤ maxSum m prep)
    (hfuel : ((prep.map gz).sum - sizeG).natAbs ≤ 12000) :
    ∃ out, autofixBestAttempt recipe sizeG m = .ok out := by
  obtain ⟨hinv, hnd, _, _⟩ := autofixPrepare_props m hm2 hm20 hmnd recipe prep hprep
  obtain ⟨out, hloop, hsum⟩ := adjustLoop_success m sizeG 12000 prep hinv hlow hhigh hfuel
  refine ⟨out, ?_⟩
  simp only [autofixBestAttempt]
  rw [hprep, except_bind_ok]
  have hfins : ∀ c ∈ prep, ∃ g : ℚ, c.grams = .fin g := by
    intro c hc
    obtain ⟨o, _, k, hk, _⟩ := hinv c hc
    exact ⟨k, hk⟩
  have hsg : sumGrams prep = .fin ((((prep.map gz).sum : ℤ)) : ℚ) := by
    rw [sumGrams_fin prep hfins, sum_gq_eq_gz m prep hinv]
  rw [hsg, hloop, except_bind_ok, if_pos hsum]

set_option maxRecDepth 100000 in
/-- Claim C2, counterexample to the claim as stated: a catalog of three
100-gram-stock ingredients can fill a 250-gram request (the validator
accepts `{A:100, B:100, C:50}`), yet on an empty candidate the repair
engine raises its terminal error, because it only ever tops the recipe up
to two components. -/
theorem claim_C2_counterexample :
    autofixBestAttempt (some []) 250 catABC = .error "autofix failed to normalize" ∧
      validateStrict (toRawRecipe [⟨"A", .fin 100⟩, ⟨"B", .fin 100⟩, ⟨"C", .fin 50⟩]) 250
        catABC = .ok () := by
  exact ⟨rfl, rfl⟩

/-- Claim C2, witness: the amended theorem applied to an empty candidate
against the two-ingredient catalog, where the prepared list `[A:20, B:20]`
can reach 100 grams in 60 unit steps. -/
theorem claim_C2_witness :
    ∃ out, autofixBestAttempt (some []) 100 catAB = .ok out := by
  exact claim_C2 catAB (some []) 100 [⟨"A", .fin 20⟩, ⟨"B", .fin 20⟩] (by decide) (by decide)
    (by decide) rfl (by decide) (by decide) (by decide)

-- ================== Claim C5: the scorer against the validator ==================

/-- The rational value of a finite JS number (0 as a placeholder otherwise;
only used where finiteness is separately known). -/
def qOf : XNum → ℚ
  | .fin q => q
  | _ => 0

/-- The per-entry penalty of the scorer as an exact rational, mirroring
`entryScore` condition for condition; it agrees with `entryScore` whenever
the coerced grams value is finite. -/
def entryScoreQ (m : Catalog) (seen : List String) : Option RawComp → ℚ
  | none => 2000
  | some r =>
    match r.origin_code with
    | none => 2000
    | some c =>
      let g := r.grams.val
      let s1 : ℚ := if (findOrigin m c).isNone then 2000 else 0
      let s2 : ℚ := if c ∈ seen then 500 else 0
      let s3 : ℚ := if ¬ g.isFinite then 500 else 0
      let s4 : ℚ := if ¬ g.isIntegerV then 150 else 0
      let s5 : ℚ := if XNum.ltb g (.fin 20) then qOf (((XNum.fin 20).sub g).mul (.fin 25)) else 0
      let s6 : ℚ :=
        match findOrigin m c with
        | none => 0
        | some o =>
          let over : ℚ :=
            if XNum.ltb (.fin (o.maxGrams : ℚ)) g then qOf ((g.sub (.fin (o.maxGrams : ℚ))).mul (.fin 40))
            else 0
          let near : ℚ :=
            if o.maxGrams > 0 ∧ XNum.ltb (.fin (nearStockCutoff o.maxGrams : ℚ)) g then 50
            else 0
          over + near
      ((((s1 + s2) + s3) + s4) + s5) + s6

/-- On entries whose coerced grams value is finite, `entryScore` is the
finite number computed by `entryScoreQ`. -/
theorem entryScore_eq_fin (m : Catalog) (seen : List String) (e : Option RawComp)
    (hfe : ∀ r, e = some r → ∃ g : ℚ, r.grams.val = XNum.fin g) :
    entryScore m seen e = .fin (entryScoreQ m seen e) := by
  match e with
  | none => rfl
  | some r =>
    match hc : r.origin_code with
    | none => simp [entryScore, entryScoreQ, hc]
    | some c =>
      obtain ⟨g, hg⟩ := hfe r rfl
      cases hfo : findOrigin m c with
      | none =>
        simp only [entryScore, entryScoreQ, hc, hg, hfo]
        split_ifs <;> rfl
      | some o =>
        simp only [entryScore, entryScoreQ, hc, hg, hfo]
        split_ifs <;> rfl

/-- A guarded conditional penalty is non-negative when its positive branch
is. -/
theorem iteH_nonneg (c : Prop) [Decidable c] (a : ℚ) (ha : c → 0 ≤ a) :
    0 ≤ if c then a else 0 := by
  split_ifs with h
  · exact ha h
  · exact le_rfl

/-- A guarded conditional penalty that vanishes forces its guard to be
false when the branch value cannot vanish. -/
theorem iteC_eq_zero_not (c : Prop) [Decidable c] (a : ℚ) (ha : c → a ≠ 0)
    (h : (if c then a else 0) = 0) : ¬ c := by
  intro hcc
  rw [if_pos hcc] at h
  exact ha hcc h

/-- A guarded conditional penalty is bounded by any bound on its positive
branch. -/
theorem iteC_le_of (c : Prop) [Decidable c] (a b : ℚ) (ha : a ≤ b) (hb : 0 ≤ b) :
    (if c then a else 0) ≤ b := by
  split_ifs with h
  · exact ha
  · exact hb

/-- The per-entry penalty is non-negative whenever the coerced grams value
is finite. -/
theorem entryScoreQ_nonneg (m : Catalog) (seen : List String) (e : Option RawComp)
    (hfe : ∀ r, e = some r → ∃ g : ℚ, r.grams.val = XNum.fin g) :
    0 ≤ entryScoreQ m seen e := by
  match e with
  | none => norm_num [entryScoreQ]
  | some r =>
    match hc : r.origin_code with
    | none => norm_num [entryScoreQ, hc]
    | some c =>
      obtain ⟨g, hg⟩ := hfe r rfl
      cases hfo : findOrigin m c with
      | none =>
        simp only [entryScoreQ, hc, hg, hfo]
        refine add_nonneg (add_nonneg (add_nonneg (add_nonneg (add_nonneg ?_ ?_) ?_) ?_) ?_) le_rfl
        · exact iteH_nonneg _ _ (fun _ => by norm_num)
        · exact iteH_nonneg _ _ (fun _ => by norm_num)
        · exact iteH_nonneg _ _ (fun _ => by norm_num)
        · exact iteH_nonneg _ _ (fun _ => by norm_num)
        · refine iteH_nonneg _ _ (fun h => ?_)
          rw [ltb_fin_fin] at h
          have hlt := of_decide_eq_true h
          have he : qOf (((XNum.fin 20).sub (XNum.fin g)).mul (XNum.fin 25)) = (20 - g) * 25 := rfl
          rw [he]
          nlinarith
      | some o =>
        simp only [entryScoreQ, hc, hg, hfo]
        refine add_nonneg (add_nonneg (add_nonneg (add_nonneg (add_nonneg ?_ ?_) ?_) ?_) ?_) ?_
        · exact iteH_nonneg _ _ (fun _ => by norm_num)
        · exact iteH_nonneg _ _ (fun _ => by norm_num)
        · exact iteH_nonneg _ _ (fun _ => by norm_num)
        · exact iteH_nonneg _ _ (fun _ => by norm_num)
        · refine iteH_nonneg _ _ (fun h => ?_)
          rw [ltb_fin_fin] at h
          have hlt := of_decide_eq_true h
          have he : qOf (((XNum.fin 20).sub (XNum.fin g)).mul (XNum.fin 25)) = (20 - g) * 25 := rfl
          rw [he]
          nlinarith
        · refine add_nonneg ?_ (iteH_nonneg _ _ (fun _ => by norm_num))
          refine iteH_nonneg _ _ (fun h => ?_)
          rw [ltb_fin_fin] at h
          have hlt := of_decide_eq_true h
          have he : qOf (((XNum.fin g).sub (XNum.fin (o.maxGrams : ℚ))).mul (XNum.fin 40))
              = (g - (o.maxGrams : ℚ)) * 40 := rfl
          rw [he]
          nlinarith

/-- A vanishing per-entry penalty certifies the entry: it is a known,
unseen component whose coerced quantity is an integer within bounds (given
that the grams field is a genuine finite number). -/
theorem entryScoreQ_eq_zero (m : Catalog) (seen : List String) (e : Option RawComp)
    (hfe : ∀ r, e = some r → r.grams.isNumber = true ∧ ∃ g : ℚ, r.grams.val = XNum.fin g)
    (h : entryScoreQ m seen e = 0) :
    specEntryOK m e = true ∧ ∀ c, codeOf e = some c → c ∉ seen := by
  match e with
  | none => exact absurd h (by norm_num [entryScoreQ])
  | some r =>
    match hc : r.origin_code with
    | none => exact absurd h (by norm_num [entryScoreQ, hc])
    | some c =>
      obtain ⟨hnum, g, hg⟩ := hfe r rfl
      cases hfo : findOrigin m c with
      | none =>
        exfalso
        simp only [entryScoreQ, hc, hg, hfo] at h
        rw [if_pos (show Option.isNone (none : Option Origin) = true from rfl)] at h
        have h2 := iteH_nonneg (c ∈ seen) (500 : ℚ) (fun _ => by norm_num)
        have h3 := iteH_nonneg (¬ (XNum.fin g).isFinite = true) (500 : ℚ) (fun _ => by norm_num)
        have h4 := iteH_nonneg (¬ (XNum.fin g).isIntegerV = true) (150 : ℚ) (fun _ => by norm_num)
        have h5 := iteH_nonneg (XNum.ltb (XNum.fin g) (XNum.fin 20) = true)
          (qOf (((XNum.fin 20).sub (XNum.fin g)).mul (XNum.fin 25))) (fun hlt => by
            rw [ltb_fin_fin] at hlt
            have := of_decide_eq_true hlt
            have he : qOf (((XNum.fin 20).sub (XNum.fin g)).mul (XNum.fin 25)) = (20 - g) * 25 := rfl
            rw [he]
            nlinarith)
        linarith
      | some o =>
        simp only [entryScoreQ, hc, hg, hfo] at h
        rw [if_neg (show ¬ (Option.isNone (some o) = true) from by simp)] at h
        rw [if_neg (show ¬ (¬ (XNum.fin g).isFinite = true) from by simp [XNum.isFinite])] at h
        have h2 := iteH_nonneg (c ∈ seen) (500 : ℚ) (fun _ => by norm_num)
        have h4 := iteH_nonneg (¬ (XNum.fin g).isIntegerV = true) (150 : ℚ) (fun _ => by norm_num)
        have h5 := iteH_nonneg (XNum.ltb (XNum.fin g) (XNum.fin 20) = true)
          (qOf (((XNum.fin 20).sub (XNum.fin g)).mul (XNum.fin 25))) (fun hlt => by
            rw [ltb_fin_fin] at hlt
            have := of_decide_eq_true hlt
            have he : qOf (((XNum.fin 20).sub (XNum.fin g)).mul (XNum.fin 25)) = (20 - g) * 25 := rfl
            rw [he]
            nlinarith)
        have hov := iteH_nonneg (XNum.ltb (XNum.fin (o.maxGrams : ℚ)) (XNum.fin g) = true)
          (qOf (((XNum.fin g).sub (XNum.fin (o.maxGrams : ℚ))).mul (XNum.fin 40))) (fun hlt => by
            rw [ltb_fin_fin] at hlt
            have := of_decide_eq_true hlt
            have he : qOf (((XNum.fin g).sub (XNum.fin (o.maxGrams : ℚ))).mul (XNum.fin 40))
                = (g - (o.maxGrams : ℚ)) * 40 := rfl
            rw [he]
            nlinarith)
        have hnr := iteH_nonneg
          (o.maxGrams > 0 ∧ XNum.ltb (XNum.fin (nearStockCutoff o.maxGrams : ℚ)) (XNum.fin g) = true)
          (50 : ℚ) (fun _ => by norm_num)
        have z2 : (if c ∈ seen then (500 : ℚ) else 0) = 0 := by linarith
        have z4 : (if ¬ (XNum.fin g).isIntegerV = true then (150 : ℚ) else 0) = 0 := by linarith
        have z5 : (if XNum.ltb (XNum.fin g) (XNum.fin 20) = true
            then qOf (((XNum.fin 20).sub (XNum.fin g)).mul (XNum.fin 25)) else 0) = 0 := by linarith
        have zov : (if XNum.ltb (XNum.fin (o.maxGrams : ℚ)) (XNum.fin g) = true
            then qOf (((XNum.fin g).sub (XNum.fin (o.maxGrams : ℚ))).mul (XNum.fin 40)) else 0) = 0 := by
          linarith
        have hseen : c ∉ seen := iteC_eq_zero_not _ _ (fun _ => by norm_num) z2
        have hint : (XNum.fin g).isIntegerV = true := by
          by_contra hni
          rw [if_pos hni] at z4
          norm_num at z4
        have h20 : 20 ≤ g := by
          by_contra hlt20
          push_neg at hlt20
          rw [if_pos (show XNum.ltb (XNum.fin g) (XNum.fin 20) = true from by
            rw [ltb_fin_fin]; exact decide_eq_true hlt20)] at z5
          have he : qOf (((XNum.fin 20).sub (XNum.fin g)).mul (XNum.fin 25)) = (20 - g) * 25 := rfl
          rw [he] at z5
          nlinarith
        have hmax : g ≤ (o.maxGrams : ℚ) := by
          by_contra hgt
          push_neg at hgt
          rw [if_pos (show XNum.ltb (XNum.fin (o.maxGrams : ℚ)) (XNum.fin g) = true from by
            rw [ltb_fin_fin]; exact decide_eq_true hgt)] at zov
          have he : qOf (((XNum.fin g).sub (XNum.fin (o.maxGrams : ℚ))).mul (XNum.fin 40))
              = (g - (o.maxGrams : ℚ)) * 40 := rfl
          rw [he] at zov
          nlinarith
        constructor
        · simp only [specEntryOK, hc, hfo, hg, hnum, Bool.true_and, Bool.and_eq_true,
            decide_eq_true_eq]
          exact ⟨hint, h20, hmax⟩
        · intro c0 hc0
          simp only [codeOf, Option.bind, hc, Option.some.injEq] at hc0
          exact hc0 ▸ hseen

/-- The per-entry penalty of an acceptable, unseen entry is at most the
near-stock penalty of 50. -/
theorem entryScoreQ_le_of_ok (m : Catalog) (seen : List String) (e : Option RawComp)
    (hok : specEntryOK m e = true) (hns : ∀ c, codeOf e = some c → c ∉ seen) :
    entryScoreQ m seen e ≤ 50 := by
  match e with
  | none => simp [specEntryOK] at hok
  | some r =>
    match hc : r.origin_code with
    | none => simp [specEntryOK, hc] at hok
    | some c =>
      cases hfo : findOrigin m c with
      | none => simp [specEntryOK, hc, hfo] at hok
      | some o =>
        match hg : r.grams.val with
        | .pinf => simp [specEntryOK, hc, hfo, hg] at hok
        | .ninf => simp [specEntryOK, hc, hfo, hg] at hok
        | .nan => simp [specEntryOK, hc, hfo, hg] at hok
        | .fin g =>
          simp only [specEntryOK, hc, hfo, hg, Bool.and_eq_true, decide_eq_true_eq] at hok
          obtain ⟨⟨hnum, hint⟩, h20, hmax⟩ := hok
          have hseen : c ∉ seen := hns c (by simp [codeOf, hc])
          simp only [entryScoreQ, hc, hg, hfo]
          rw [if_neg (show ¬ (Option.isNone (some o) = true) from by simp)]
          rw [if_neg (show ¬ (c ∈ seen) from hseen)]
          rw [if_neg (show ¬ (¬ (XNum.fin g).isFinite = true) from by simp [XNum.isFinite])]
          rw [if_neg (show ¬ (¬ (XNum.fin g).isIntegerV = true) from not_not_intro hint)]
          rw [if_neg (show ¬ (XNum.ltb (XNum.fin g) (XNum.fin 20) = true) from by
            rw [ltb_fin_fin]; simp only [decide_eq_true_eq]; exact not_lt.mpr h20)]
          rw [if_neg (show ¬ (XNum.ltb (XNum.fin (o.maxGrams : ℚ)) (XNum.fin g) = true) from by
            rw [ltb_fin_fin]; simp only [decide_eq_true_eq]; exact not_lt.mpr hmax)]
          have hnear := iteC_le_of
            (o.maxGrams > 0 ∧ XNum.ltb (XNum.fin (nearStockCutoff o.maxGrams : ℚ)) (XNum.fin g) = true)
            (50 : ℚ) 50 le_rfl (by norm_num)
          linarith

/-- An acceptable entry carries a string code. -/
theorem specEntryOK_code (m : Catalog) (e : Option RawComp) (h : specEntryOK m e = true) :
    ∃ c0, codeOf e = some c0 := by
  match e with
  | none => simp [specEntryOK] at h
  | some r =>
    match hc : r.origin_code with
    | none => simp [specEntryOK, hc] at h
    | some c => exact ⟨c, by simp [codeOf, hc]⟩

/-- The scorer's seen-set update prepends the entry's code when it has
one. -/
theorem seenAfter_eq (seen : List String) (e : Option RawComp) (c : String)
    (h : codeOf e = some c) : seenAfter seen e = c :: seen := by
  match e with
  | none => simp [codeOf] at h
  | some r =>
    match hc : r.origin_code with
    | none => simp [codeOf, hc] at h
    | some c0 =>
      have hcc : c0 = c := by
        simp only [codeOf, Option.bind, hc, Option.some.injEq] at h
        exact h
      subst hcc
      simp [seenAfter, hc]

/-- The scorer's per-component loop computes a non-negative finite total
over entries with genuine finite grams; that total vanishes exactly on
lists every one of whose entries is acceptable, mutually distinct and
disjoint from the seen set, and on such lists it is bounded by 50 per
component. -/
theorem scoreComps_spec (m : Catalog) (l : List (Option RawComp)) :
    (∀ r : RawComp, some r ∈ l → r.grams.isNumber = true ∧ ∃ g : ℚ, r.grams.val = XNum.fin g) →
    ∀ (seen : List String) (a : ℚ), ∃ q : ℚ,
      scoreComps m seen (.fin a) l = .fin (a + q) ∧ 0 ≤ q ∧
      (q = 0 →
        (∀ e ∈ l, specEntryOK m e = true) ∧ (l.map codeOf).Nodup ∧
          (∀ c ∈ seen, some c ∉ l.map codeOf)) ∧
      ((∀ e ∈ l, specEntryOK m e = true) → (l.map codeOf).Nodup →
        (∀ c ∈ seen, some c ∉ l.map codeOf) → q ≤ 50 * l.length) := by
  induction l with
  | nil =>
    intro _ seen a
    refine ⟨0, by simp [scoreComps], le_rfl, ?_, ?_⟩
    · intro _
      exact ⟨by simp, by simp, by simp⟩
    · intro _ _ _
      norm_num
  | cons e rs ih =>
    intro hl seen a
    have hfe : ∀ r, e = some r → r.grams.isNumber = true ∧ ∃ g : ℚ, r.grams.val = XNum.fin g := by
      intro r hre
      refine hl r ?_
      rw [hre]
      exact List.mem_cons_self _ _
    have hfef : ∀ r, e = some r → ∃ g : ℚ, r.grams.val = XNum.fin g := fun r hre => (hfe r hre).2
    have htl : ∀ r : RawComp, some r ∈ rs →
        r.grams.isNumber = true ∧ ∃ g : ℚ, r.grams.val = XNum.fin g :=
      fun r hr => hl r (List.mem_cons_of_mem e hr)
    obtain ⟨q, hq, hq0, hz, hb⟩ := ih htl (seenAfter seen e) (a + entryScoreQ m seen e)
    have hE0 : 0 ≤ entryScoreQ m seen e := entryScoreQ_nonneg m seen e hfef
    refine ⟨entryScoreQ m seen e + q, ?_, add_nonneg hE0 hq0, ?_, ?_⟩
    · simp only [scoreComps]
      rw [entryScore_eq_fin m seen e hfef]
      rw [show (XNum.fin a).add (XNum.fin (entryScoreQ m seen e))
          = XNum.fin (a + entryScoreQ m seen e) from rfl]
      rw [hq, add_assoc]
    · intro h0
      have hE : entryScoreQ m seen e = 0 := by linarith
      have hqz : q = 0 := by linarith
      obtain ⟨hokE, hnsE⟩ := entryScoreQ_eq_zero m seen e hfe hE
      obtain ⟨c, hcode⟩ := specEntryOK_code m e hokE
      have hseq := seenAfter_eq seen e c hcode
      obtain ⟨hall, hnd, hdis⟩ := hz hqz
      rw [hseq] at hdis
      refine ⟨?_, ?_, ?_⟩
      · intro e2 he2
        rcases List.mem_cons.mp he2 with rfl | he2
        · exact hokE
        · exact hall e2 he2
      · simp only [List.map_cons, List.nodup_cons]
        refine ⟨?_, hnd⟩
        rw [hcode]
        exact hdis c (List.mem_cons_self c seen)
      · intro c2 hc2
        simp only [List.map_cons, List.mem_cons]
        rintro (h | h)
        · rw [hcode] at h
          rw [Option.some_inj.mp h] at hc2
          exact hnsE c hcode hc2
        · exact hdis c2 (List.mem_cons_of_mem c hc2) h
    · intro hall hnd hdis
      have hokE := hall e (List.mem_cons_self e rs)
      obtain ⟨c, hcode⟩ := specEntryOK_code m e hokE
      have hseq := seenAfter_eq seen e c hcode
      simp only [List.map_cons, List.nodup_cons] at hnd
      have hnsE : ∀ c0, codeOf e = some c0 → c0 ∉ seen := by
        intro c0 hc0 hc0in
        refine hdis c0 hc0in ?_
        simp only [List.map_cons, List.mem_cons]
        exact Or.inl hc0.symm
      have hE50 := entryScoreQ_le_of_ok m seen e hokE hnsE
      have hdis2 : ∀ c2 ∈ seenAfter seen e, some c2 ∉ rs.map codeOf := by
        rw [hseq]
        intro c2 hc2
        rcases List.mem_cons.mp hc2 with rfl | hc2
        · rw [← hcode]
          exact hnd.1
        · intro hmem
          exact hdis c2 hc2 (by simp only [List.map_cons, List.mem_cons]; exact Or.inr hmem)
      have hql := hb (fun e2 he2 => hall e2 (List.mem_cons_of_mem e he2)) hnd.2 hdis2
      simp only [List.length_cons]
      push_cast
      linarith

/-- The short-circuiting default `|| 0` leaves a finite number unchanged
when used as the grams summand. -/
theorem orDefault_zero (g : ℚ) : (XNum.fin g).orDefault 0 = XNum.fin g := by
  simp only [XNum.orDefault]
  split_ifs with h
  · rw [h]
  · rfl

/-- The grams-sum reduce computes the rational sum of the coerced
quantities when these are finite. -/
theorem gramsSumAux_fin (l : List (Option RawComp)) :
    (∀ r : RawComp, some r ∈ l → ∃ g : ℚ, r.grams.val = XNum.fin g) →
    ∀ a : ℚ, gramsSumAux (.fin a) l = .fin (a + (l.map gramsQOf).sum) := by
  induction l with
  | nil =>
    intro _ a
    simp [gramsSumAux]
  | cons e rs ih =>
    intro hl a
    match e with
    | none =>
      have htl : ∀ r : RawComp, some r ∈ rs → ∃ g : ℚ, r.grams.val = XNum.fin g :=
        fun r hr => hl r (List.mem_cons_of_mem none hr)
      simp only [gramsSumAux]
      rw [show (XNum.fin a).add (XNum.fin 0) = XNum.fin (a + 0) from rfl, ih htl (a + 0)]
      simp only [List.map_cons, List.sum_cons, gramsQOf]
      congr 1
      ring
    | some r =>
      have htl : ∀ r2 : RawComp, some r2 ∈ rs → ∃ g : ℚ, r2.grams.val = XNum.fin g :=
        fun r2 hr => hl r2 (List.mem_cons_of_mem (some r) hr)
      obtain ⟨g, hg⟩ := hl r (List.mem_cons_self _ _)
      simp only [gramsSumAux]
      rw [hg, orDefault_zero]
      rw [show (XNum.fin a).add (XNum.fin g) = XNum.fin (a + g) from rfl, ih htl (a + g)]
      simp only [List.map_cons, List.sum_cons, gramsQOf, hg]
      congr 1
      ring

/-- The grams sum of a recipe with genuine finite grams is the finite sum
of its quantities. -/
theorem gramsSum_fin_eq (l : List (Option RawComp))
    (hl : ∀ r : RawComp, some r ∈ l → ∃ g : ℚ, r.grams.val = XNum.fin g) :
    gramsSum l = .fin ((l.map gramsQOf).sum) := by
  rw [gramsSum, gramsSumAux_fin l hl 0, zero_add]

/-- Claim C5: the scorer never raises and, on any input whose entries carry
genuine finite numbers as grams (a non-array or a list with null entries
included), returns a non-negative rational; when the validator accepts the
recipe the score is at most 50 per component (the near-stock penalty keeps
it from always being zero), and when the validator rejects it the score is
strictly positive. -/
theorem claim_C5 (recipe : RawRecipe) (sizeG : ℤ) (m : Catalog)
    (hfin : ∀ l, recipe = some l → ∀ r : RawComp, some r ∈ l →
      r.grams.isNumber = true ∧ ∃ g : ℚ, r.grams.val = XNum.fin g) :
    ∃ q : ℚ, violationScore recipe sizeG m = .fin q ∧ 0 ≤ q ∧
      (validateStrict recipe sizeG m = .ok () → q ≤ 50 * ((recipe.getD []).length : ℚ)) ∧
      (validateStrict recipe sizeG m ≠ .ok () → 0 < q) := by
  match recipe with
  | none =>
    refine ⟨1000000000, rfl, by norm_num, ?_, ?_⟩
    · intro h
      exact absurd h (by simp [validateStrict])
    · intro _
      norm_num
  | some l =>
    have hl := hfin l rfl
    have hlf : ∀ r : RawComp, some r ∈ l → ∃ g : ℚ, r.grams.val = XNum.fin g :=
      fun r hr => (hl r hr).2
    obtain ⟨q, hq, hq0, hz, hb⟩ := scoreComps_spec m l hl [] 0
    have hsum := gramsSum_fin_eq l hlf
    have hcl : (if l.length < 2 then (XNum.fin 1800) else .fin 0)
        = .fin (if l.length < 2 then (1800 : ℚ) else 0) := by
      split_ifs <;> rfl
    have hch : (if l.length > 5 then (XNum.fin ((l.length - 5 : ℤ) * 500)) else .fin 0)
        = .fin (if l.length > 5 then (((l.length - 5 : ℤ) * 500 : ℚ)) else 0) := by
      split_ifs <;> rfl
    have hv : violationScore (some l) sizeG m
        = .fin ((((0 + q) + (if l.length < 2 then (1800 : ℚ) else 0))
            + (if l.length > 5 then (((l.length - 5 : ℤ) * 500 : ℚ)) else 0))
            + |(l.map gramsQOf).sum - (sizeG : ℚ)| * 15) := by
      simp only [violationScore]
      rw [hq, hcl, hch, hsum]
      rfl
    have hCL0 : (0 : ℚ) ≤ (if l.length < 2 then (1800 : ℚ) else 0) := by
      split_ifs <;> norm_num
    have hCH0 : (0 : ℚ) ≤ (if l.length > 5 then (((l.length - 5 : ℤ) * 500 : ℚ)) else 0) := by
      split_ifs with h
      · have h5 : (0 : ℤ) ≤ (l.length : ℤ) - 5 := by omega
        have hc5 : (0 : ℚ) ≤ ((l.length - 5 : ℤ) : ℚ) := by exact_mod_cast h5
        nlinarith
      · norm_num
    have hP0 : (0 : ℚ) ≤ |(l.map gramsQOf).sum - (sizeG : ℚ)| * 15 := by positivity
    refine ⟨_, hv, by linarith, ?_, ?_⟩
    · intro hval
      have hspec := (validateStrict_ok_iff _ _ _).mp hval
      simp only [specValidRecipe, Bool.and_eq_true, decide_eq_true_eq, List.all_eq_true] at hspec
      obtain ⟨⟨⟨⟨h2, h5⟩, hall⟩, hnd⟩, hsml⟩ := hspec
      have hql := hb hall hnd (by simp)
      rw [if_neg (show ¬ l.length < 2 from by omega), if_neg (show ¬ l.length > 5 from by omega)]
      rw [hsml, sub_self, abs_zero, zero_mul]
      simp only [Option.getD_some]
      linarith
    · intro hne
      by_contra hnp
      push_neg at hnp
      have hq1 : q = 0 := by linarith
      have hcl0 : (if l.length < 2 then (1800 : ℚ) else 0) = 0 := by linarith
      have hch0 : (if l.length > 5 then (((l.length - 5 : ℤ) * 500 : ℚ)) else 0) = 0 := by linarith
      have hp0 : |(l.map gramsQOf).sum - (sizeG : ℚ)| * 15 = 0 := by linarith
      obtain ⟨hall, hnd, _⟩ := hz hq1
      have h2 : ¬ l.length < 2 := by
        intro h
        rw [if_pos h] at hcl0
        norm_num at hcl0
      have h5 : ¬ l.length > 5 := by
        intro h
        rw [if_pos h] at hch0
        have hz5 : ((l.length - 5 : ℤ) : ℚ) = 0 := by linarith
        have hzi : ((l.length : ℤ) - 5) = 0 := by exact_mod_cast hz5
        omega
      have hsml : (l.map gramsQOf).sum = (sizeG : ℚ) := by
        have habs : |(l.map gramsQOf).sum - (sizeG : ℚ)| = 0 := by linarith
        have hd := abs_eq_zero.mp habs
        linarith
      refine hne ((validateStrict_ok_iff _ _ _).mpr ?_)
      simp only [specValidRecipe, Bool.and_eq_true, decide_eq_true_eq, List.all_eq_true]
      exact ⟨⟨⟨⟨by omega, by omega⟩, hall⟩, hnd⟩, hsml⟩

/-- Claim C5, counterexample to the claim as stated: a recipe whose grams
are the numeric strings "120" and "130" scores zero (the scorer grades the
`Number()` coercion), yet the validator rejects it ("grams must be
integer" fires on non-number grams), so the score is not strictly positive
on every validator-rejected recipe. -/
theorem claim_C5_counterexample :
    violationScore (some [some ⟨some "A", ⟨false, XNum.fin 120⟩⟩,
        some ⟨some "B", ⟨false, XNum.fin 130⟩⟩]) 250 catAB = XNum.fin 0 ∧
      validateStrict (some [some ⟨some "A", ⟨false, XNum.fin 120⟩⟩,
        some ⟨some "B", ⟨false, XNum.fin 130⟩⟩]) 250 catAB
        = .error "grams must be integer" := by
  exact ⟨rfl, rfl⟩

/-- Claim C5, witness: the amended theorem applied to a well-formed
two-component recipe against the two-ingredient catalog. -/
theorem claim_C5_witness :
    ∃ q : ℚ, violationScore (toRawRecipe [⟨"A", XNum.fin 100⟩, ⟨"B", XNum.fin 150⟩]) 250 catAB
        = .fin q ∧ 0 ≤ q ∧
      (validateStrict (toRawRecipe [⟨"A", XNum.fin 100⟩, ⟨"B", XNum.fin 150⟩]) 250 catAB
          = .ok () →
        q ≤ 50 * (((toRawRecipe [⟨"A", XNum.fin 100⟩, ⟨"B", XNum.fin 150⟩]).getD []).length : ℚ)) ∧
      (validateStrict (toRawRecipe [⟨"A", XNum.fin 100⟩, ⟨"B", XNum.fin 150⟩]) 250 catAB
          ≠ .ok () → 0 < q) := by
  refine claim_C5 (toRawRecipe [⟨"A", XNum.fin 100⟩, ⟨"B", XNum.fin 150⟩]) 250 catAB ?_
  intro l hl r hr
  have hl2 : l = [some ⟨some "A", ⟨true, XNum.fin 100⟩⟩, some ⟨some "B", ⟨true, XNum.fin 150⟩⟩] := by
    injection hl with h
    exact h.symm
  subst hl2
  simp only [List.mem_cons, List.not_mem_nil, or_false] at hr
  rcases hr with h | h
  · injection h with h2
    subst h2
    exact ⟨rfl, 100, rfl⟩
  · injection h with h2
    subst h2
    exact ⟨rfl, 150, rfl⟩

-- ================== Claim C3: the fallback path of the orchestrator ==================

/-- The best-candidate accumulator of the attempt loop on its own: what
`best` holds after the loop has run a window of attempts in which no
attempt returned early. -/
def bestFold (gen : Generator) (p : Payload) (m : Catalog) : ℕ → ℕ → Option BestC → Option BestC
  | _, 0, best => best
  | attempt, fuel + 1, best =>
    match gen attempt with
    | none => bestFold gen p m (attempt + 1) fuel best
    | some raw =>
      bestFold gen p m (attempt + 1) fuel
        (updBest best raw (violationScore raw.recipe p.size_g m) attempt)

/-- When every attempt of the window fails recoverably (a parse failure or
a caught body error), the retry loop falls through to the fallback path on
the folded best candidate. -/
theorem recLoop_all_fail (gen : Generator) (p : Payload) (m : Catalog) :
    ∀ (fuel attempt : ℕ) (best : Option BestC) (last : Option String),
      (∀ i, attempt ≤ i → i < attempt + fuel →
        gen i = none ∨ ∃ raw, gen i = some raw ∧ ∃ e, attemptBody p m raw i = .error e) →
      recLoop gen p m attempt fuel best last
        = fallbackResult p m (bestFold gen p m attempt fuel best) := by
  intro fuel
  induction fuel with
  | zero =>
    intro attempt best last _
    rfl
  | succ n ih =>
    intro attempt best last hfail
    rcases hfail attempt (le_refl _) (by omega) with hnone | ⟨raw, hraw, e, he⟩
    · simp only [recLoop, bestFold, hnone]
      exact ih (attempt + 1) best _ (fun i h1 h2 => hfail i (by omega) (by omega))
    · simp only [recLoop, bestFold, hraw, he]
      exact ih (attempt + 1) (updBest best raw (violationScore raw.recipe p.size_g m) attempt)
        (some e) (fun i h1 h2 => hfail i (by omega) (by omega))

/-- A successful fallback result is always tagged as the autofix path with
the full attempt count. -/
theorem fallbackResult_ok_tags (p : Payload) (m : Catalog) (b : Option BestC) (r : RecResult)
    (h : fallbackResult p m b = .ok r) : r.usedAutofix = true ∧ r.attempts = MAX_ATTEMPTS := by
  match b with
  | none => exact absurd h (by simp [fallbackResult])
  | some bb =>
    simp only [fallbackResult] at h
    cases hfix : autofixBestAttempt bb.raw.recipe p.size_g m with
    | error e =>
      rw [hfix, except_bind_error] at h
      exact absurd h (by simp)
    | ok fixed =>
      rw [hfix, except_bind_ok] at h
      cases hval : validateStrict (toRawRecipe fixed) p.size_g m with
      | error e =>
        rw [hval, except_bind_error] at h
        exact absurd h (by simp)
      | ok u =>
        rw [hval, except_bind_ok] at h
        cases hpb : priceBlend (fixed.map CompX.toRaw) m with
        | error e =>
          rw [hpb, except_bind_error] at h
          exact absurd h (by simp)
        | ok pr =>
          rw [hpb, except_bind_ok] at h
          injection h with h2
          rw [← h2]
          exact ⟨rfl, rfl⟩

/-- Claim C3: when every generator attempt fails recoverably, the run
falls through to the repair-engine fallback and never surfaces the
generator failures — but only when that fallback itself succeeds.
Amended: under passing input guards and a non-empty catalog, if every
attempt of the window fails recoverably and the fallback pipeline on the
best retained candidate produces a result, the run returns exactly that
result, tagged `usedAutofix` with the full attempt count, and the worker
marks the job succeeded with it attached.  (The counterexample shows the
unconditional claim fails: with no parseable candidate at all the run
throws and the job is not marked succeeded.) -/
theorem claim_C3 (gen : Generator) (p : Payload) (m : Catalog) (j : JobRec) (maxA : ℕ)
    (r : RecResult)
    (hsz : ¬ p.size_g ≤ 0) (hline : ¬ (p.line ≠ "daily" ∧ p.line ≠ "premium"))
    (hpref : p.hasPreferences = true) (hm : m.isEmpty = false)
    (hfail : ∀ i, 1 ≤ i → i < 1 + MAX_ATTEMPTS →
      gen i = none ∨ ∃ raw, gen i = some raw ∧ ∃ e, attemptBody p m raw i = .error e)
    (hfb : fallbackResult p m (bestFold gen p m 1 MAX_ATTEMPTS none) = .ok r) :
    runRecommend gen p m = .ok r ∧ r.usedAutofix = true ∧ r.attempts = MAX_ATTEMPTS ∧
      (workerSettle j (runRecommend gen p m) maxA).status = "succeeded" ∧
      (workerSettle j (runRecommend gen p m) maxA).result = some r := by
  have hrun : runRecommend gen p m = .ok r := by
    simp only [runRecommend]
    rw [if_neg hsz, if_neg hline, if_neg (not_not_intro hpref),
      if_neg (show ¬ (m.isEmpty = true) from by simp [hm])]
    rw [recLoop_all_fail gen p m MAX_ATTEMPTS 1 none none (fun i h1 h2 => hfail i h1 h2)]
    exact hfb
  obtain ⟨hu, ha⟩ := fallbackResult_ok_tags p m _ r hfb
  refine ⟨hrun, hu, ha, ?_, ?_⟩
  · rw [hrun]
    rfl
  · rw [hrun]
    rfl

/-- Claim C3, counterexample to the claim as stated: when all five
generator attempts return unparseable output (each one a recoverable
failure), no candidate is retained, the fallback throws, the run raises
`No usable output after attempts`, and the worker requeues the job instead
of marking it succeeded. -/
theorem claim_C3_counterexample :
    runRecommend (fun _ => none) ⟨250, "daily", true⟩ catAB
        = .error "No usable output after attempts" ∧
      (workerSettle ⟨"running", 0, none, none, some 0, some "w0"⟩
          (runRecommend (fun _ => none) ⟨250, "daily", true⟩ catAB) 2).status = "queued" := by
  exact ⟨rfl, rfl⟩

/-- The concrete fallback result of the witness run: the generator always
returns an empty recipe, each attempt fails strict validation, and the
repair engine builds `{A:130, B:20}` for a 150-gram request over the
two-ingredient catalog. -/
def c3Result : RecResult :=
  ⟨[⟨"A", XNum.fin 130⟩, ⟨"B", XNum.fin 20⟩],
    ⟨XNum.fin (259 / 2), 15, 3 / 20, XNum.fin (289 / 2), XNum.fin (8309 / 50), XNum.fin 165⟩,
    5, true⟩

set_option maxRecDepth 100000 in
/-- Claim C3, witness: the amended theorem applied to a generator that
always returns a parseable but invalid (empty) recipe, for a 150-gram
daily request against the two-ingredient catalog. -/
theorem claim_C3_witness :
    runRecommend (fun _ => some ⟨some []⟩) ⟨150, "daily", true⟩ catAB = .ok c3Result ∧
      c3Result.usedAutofix = true ∧ c3Result.attempts = MAX_ATTEMPTS ∧
      (workerSettle ⟨"running", 0, none, none, some 0, some "w1"⟩
          (runRecommend (fun _ => some ⟨some []⟩) ⟨150, "daily", true⟩ catAB) 2).status
        = "succeeded" ∧
      (workerSettle ⟨"running", 0, none, none, some 0, some "w1"⟩
          (runRecommend (fun _ => some ⟨some []⟩) ⟨150, "daily", true⟩ catAB) 2).result
        = some c3Result := by
  exact claim_C3 (fun _ => some ⟨some []⟩) ⟨150, "daily", true⟩ catAB
    ⟨"running", 0, none, none, some 0, some "w1"⟩ 2 c3Result (by decide) (by decide) rfl rfl
    (fun i h1 h2 => Or.inr ⟨⟨some []⟩, rfl, "recipe must have 2..5 items", rfl⟩) rfl

end Apex
